import Mathlib

/-!
# The poll() echo server of `src/server-poll.c`

A shallow embedding of the event loop of `main` (lines 128-318): the poll call,
the dispatch loop over the snapshot of active slots, the accept-drain loop,
the service cycle of one connection, the end-of-round compaction of the
descriptor array and the final cleanup.

* The descriptor array `struct pollfd fds[MAX_FDS]` is a list of `MAX_FDS`
  entries.  Every array access is bounds-checked against the length of the
  list: an access outside the array is undefined behaviour in C and is a
  `Fault.outOfBounds` here.
* The system calls are the environment.  Their results in one round are given
  by a `RoundInput`; the calls the program makes are recorded, in order, in
  the `trace` of the state.
* The receive buffer `char buffer[MAX_BUFF]` is a list of `MAX_BUFF` bytes. The
  `printf` of line 263 reads it as a C string, up to the first zero byte: when the
  buffer holds no zero byte the read runs past `buffer[MAX_BUFF - 1]`, which is
  undefined behaviour in C and a `Fault.bufferOutOfBounds` here.
* What the diagnostic output (`printf`, `perror`) writes is not modelled.
-/

namespace ServerPoll

/-! ## Constants -/

/-- Size of the receive buffer: `#define MAX_BUFF 1024`. -/
def MAX_BUFF : Nat := 1024

/-- Size of the descriptor array: `#define MAX_FDS 200`, commented in the source as
the max number of simultaneous connections. -/
def MAX_FDS : Nat := 200

/-- The readiness flag `POLLIN` of `<sys/poll.h>` (system header, value on Linux). -/
def POLLIN : Int := 1

/-- The error number `EWOULDBLOCK` of `<errno.h>` (system header, value on Linux). -/
def EWOULDBLOCK : Int := 11

/-! ## Data model -/

/-- One slot of the descriptor array: `struct pollfd`. -/
structure pollfd where
  fd : Int
  events : Int
  revents : Int
deriving DecidableEq, Repr

/-- Ways in which the C program leaves defined behaviour (or the model its fuel). -/
inductive Fault where
  | outOfBounds (idx : Nat)
  | bufferOutOfBounds (idx : Nat)
  | outOfFuel
deriving DecidableEq, Repr

/-- The system calls on descriptors that the loop performs. `accept` carries the
returned value, `recv` the descriptor and the returned count, `send` the descriptor
and the `len` bytes of the buffer handed over, `close` the descriptor. -/
inductive Event where
  | accept (new_sd : Int)
  | recv (fd : Int) (rc : Int)
  | send (fd : Int) (bytes : List Nat)
  | close (fd : Int)
deriving DecidableEq, Repr

/-- Result of one call of `accept`: the returned value and `errno`. -/
structure SysRet where
  ret : Int
  errno : Int
deriving DecidableEq, Repr

/-- Result of one call of `recv(fd, buffer, sizeof(buffer), 0)`: either it fails
(returns a negative value, with `errno`), or the connection delivers `bytes`, of
which `recv` stores at most `MAX_BUFF` in the buffer and returns their number
(no bytes: the value 0, orderly shutdown of the peer). -/
inductive RecvResult where
  | error (errno : Int)
  | data (bytes : List Nat)
deriving DecidableEq, Repr

/-- What the environment answers in one round of the loop. `rc` and `revents` are
the result of `poll`; the other fields are indexed by the slot being dispatched:
the results of the successive `accept` calls (after the last listed result
`accept` reports `EWOULDBLOCK`), the result of `recv`, the value returned by `send`. -/
structure RoundInput where
  rc : Int
  revents : List Int
  accepts : Nat → List SysRet
  recv : Nat → RecvResult
  send : Nat → Int

/-- The variables of `main` that live across rounds, and the trace of calls. -/
structure State where
  fds : List pollfd
  nfds : Nat
  end_server : Int
  compress_array : Int
  trace : List Event
deriving DecidableEq, Repr

deriving instance DecidableEq for Except

/-! ## Array access -/

/-- Read `fds[i]`. -/
def rd (fds : List pollfd) (i : Nat) : Except Fault pollfd :=
  match fds[i]? with
  | some p => .ok p
  | none => .error (.outOfBounds i)

/-- Write `fds[i].fd = v`. -/
def setFd (fds : List pollfd) (i : Nat) (v : Int) : Except Fault (List pollfd) :=
  match fds[i]? with
  | some p => .ok (fds.set i { p with fd := v })
  | none => .error (.outOfBounds i)

/-- Write `fds[i].events = v`. -/
def setEvents (fds : List pollfd) (i : Nat) (v : Int) : Except Fault (List pollfd) :=
  match fds[i]? with
  | some p => .ok (fds.set i { p with events := v })
  | none => .error (.outOfBounds i)

/-! ## The accept-drain loop (lines 186-216) -/

/-- The loop `do { new_sd = accept(...); ... } while (new_sd != -1)`. The list holds
the results of the successive calls of `accept`; when it is used up the next call
reports `EWOULDBLOCK`. -/
def acceptLoop : List SysRet → State → Except Fault State
  | [], s => .ok { s with trace := s.trace ++ [Event.accept (-1)] }
  | r :: rest, s =>
    let s1 := { s with trace := s.trace ++ [Event.accept r.ret] }
    if r.ret < 0 then
      if r.errno != EWOULDBLOCK then .ok { s1 with end_server := 1 } else .ok s1
    else
      match setFd s1.fds s1.nfds r.ret with
      | .error e => .error e
      | .ok fds1 =>
        match setEvents fds1 s1.nfds POLLIN with
        | .error e => .error e
        | .ok fds2 =>
          let s2 := { s1 with fds := fds2, nfds := s1.nfds + 1 }
          if r.ret != -1 then acceptLoop rest s2 else .ok s2

/-! ## The service cycle of one connection (lines 223-286) -/

/-- The buffer after `memset(buffer, 0, sizeof(buffer))` and a `recv` that delivers
`bytes`: the first `MAX_BUFF` of them, then zeros. -/
def recvBuffer (bytes : List Nat) : List Nat :=
  bytes.take MAX_BUFF ++ List.replicate (MAX_BUFF - bytes.length) 0

/-- The block `if (close_conn) { close(fds[i].fd); fds[i].fd = -1; compress_array = 1; }`
when `close_conn` is set. -/
def closeConn (i : Nat) (s : State) : Except Fault State :=
  match rd s.fds i with
  | .error e => .error e
  | .ok p =>
    match setFd s.fds i (-1) with
    | .error e => .error e
    | .ok fds1 =>
      .ok { s with fds := fds1, compress_array := 1, trace := s.trace ++ [Event.close p.fd] }

/-- The read of the array `buffer` as a C string, as `printf` does for `%s`: the bytes
before the first zero byte. When the array holds no zero byte the read goes on at the
index after its last element. -/
def cString (buffer : List Nat) : Except Fault (List Nat) :=
  if buffer.contains 0 then .ok (buffer.takeWhile (fun b => b != 0))
  else .error (Fault.bufferOutOfBounds buffer.length)

/-- The `do { ... } while (0)` block on slot `i` and the close that follows it. Between
the replacement of a final newline and the `send`, the `printf` of line 263 reads
`buffer` as a C string. -/
def serviceCycle (inp : RoundInput) (i : Nat) (s : State) : Except Fault State :=
  match rd s.fds i with
  | .error e => .error e
  | .ok p =>
    match inp.recv i with
    | .error errno =>
      let s1 := { s with trace := s.trace ++ [Event.recv p.fd (-1)] }
      if errno != EWOULDBLOCK then closeConn i s1 else .ok s1
    | .data bytes =>
      let buffer := recvBuffer bytes
      let rc := min bytes.length MAX_BUFF
      let s1 := { s with trace := s.trace ++ [Event.recv p.fd rc] }
      if rc == 0 then closeConn i s1
      else
        let len := rc
        let buffer1 := if buffer.getD (len - 1) 0 == 10 then buffer.set (len - 1) 0 else buffer
        match cString buffer1 with
        | .error e => .error e
        | .ok _ =>
          let s2 := { s1 with trace := s1.trace ++ [Event.send p.fd (buffer1.take len)] }
          if inp.send i < 0 then closeConn i s2 else .ok s2

/-! ## The dispatch loop (lines 155-288) -/

/-- The body of the loop over the slots, on slot `i`. The boolean tells whether the
body leaves the loop with `break` (unexpected `revents`, lines 169-173). -/
def dispatchSlot (listen_sd : Int) (inp : RoundInput) (i : Nat) (s : State) :
    Except Fault (State × Bool) :=
  match rd s.fds i with
  | .error e => .error e
  | .ok p =>
    if p.revents == 0 then .ok (s, false)
    else if p.revents != POLLIN then .ok ({ s with end_server := 1 }, true)
    else if p.fd == listen_sd then
      match acceptLoop (inp.accepts i) s with
      | .error e => .error e
      | .ok s1 => .ok (s1, false)
    else
      match serviceCycle inp i s with
      | .error e => .error e
      | .ok s1 => .ok (s1, false)

/-- The loop `for (i = ...; i < current_size; i++)`, with `n = current_size - i`
iterations left. -/
def dispatchLoop (listen_sd : Int) (inp : RoundInput) : Nat → Nat → State → Except Fault State
  | 0, _, s => .ok s
  | n + 1, i, s =>
    match dispatchSlot listen_sd inp i s with
    | .error e => .error e
    | .ok (s1, true) => .ok s1
    | .ok (s1, false) => dispatchLoop listen_sd inp n (i + 1) s1

/-! ## Compaction (lines 297-308) -/

/-- The inner loop `for (j = ...; j < nfds; j++) fds[j].fd = fds[j + 1].fd;` with
`n = nfds - j` iterations left. -/
def shiftLoop : Nat → Nat → List pollfd → Except Fault (List pollfd)
  | 0, _, fds => .ok fds
  | n + 1, j, fds =>
    match rd fds (j + 1) with
    | .error e => .error e
    | .ok q =>
      match setFd fds j q.fd with
      | .error e => .error e
      | .ok fds1 => shiftLoop n (j + 1) fds1

/-- The outer loop `for (i = ...; i < nfds; i++)`. When `fds[i].fd == -1` the body
ends with `i--; nfds--;` and the loop header adds one to `i` again, so the next
iteration looks at the same index. The first argument is fuel. -/
def compressLoop : Nat → Nat → Nat → List pollfd → Except Fault (List pollfd × Nat)
  | 0, _, _, _ => .error .outOfFuel
  | fuel + 1, i, nfds, fds =>
    if i < nfds then
      match rd fds i with
      | .error e => .error e
      | .ok p =>
        if p.fd == -1 then
          match shiftLoop (nfds - i) i fds with
          | .error e => .error e
          | .ok fds1 => compressLoop fuel i (nfds - 1) fds1
        else compressLoop fuel (i + 1) nfds fds
    else .ok (fds, nfds)

/-- The loop nest of lines 299-307 on the array and the active count. -/
def compress (fds : List pollfd) (nfds : Nat) : Except Fault (List pollfd × Nat) :=
  compressLoop (nfds + 1) 0 nfds fds

/-- The statement `if (compress_array) { compress_array = 0; ... }`. -/
def compaction (s : State) : Except Fault State :=
  if s.compress_array != 0 then
    match compress s.fds s.nfds with
    | .error e => .error e
    | .ok r => .ok { s with compress_array := 0, fds := r.1, nfds := r.2 }
  else .ok s

/-! ## One round, the loop, the cleanup -/

/-- What a successful `poll(fds, nfds, timeout)` writes: `revents` of the first
`nfds` slots (a missing entry of the answer is 0). -/
def pollWrite : List Int → Nat → List pollfd → List pollfd
  | _, 0, fds => fds
  | _, _ + 1, [] => []
  | revs, n + 1, p :: fds => { p with revents := revs.headD 0 } :: pollWrite revs.tail n fds

/-- The dispatch of one round: `current_size = nfds;` and the loop over the slots
below `current_size`. -/
def dispatch (listen_sd : Int) (inp : RoundInput) (s : State) : Except Fault State :=
  dispatchLoop listen_sd inp s.nfds 0 s

/-- One iteration of the `do { ... } while (end_server == 0)` loop. The boolean
tells whether the loop goes on: it does not after a `break` (poll failed or timed
out) or when `end_server` is set at the end of the body. -/
def iteration (listen_sd : Int) (inp : RoundInput) (s : State) : Except Fault (State × Bool) :=
  if inp.rc < 0 then .ok (s, false)
  else if inp.rc == 0 then .ok (s, false)
  else
    match dispatch listen_sd inp { s with fds := pollWrite inp.revents s.nfds s.fds } with
    | .error e => .error e
    | .ok s1 =>
      match compaction s1 with
      | .error e => .error e
      | .ok s2 => .ok (s2, s2.end_server == 0)

/-- The state when the loop is entered (lines 27, 37, 109-115). -/
def initState (listen_sd : Int) : State :=
  { fds := (List.replicate MAX_FDS (⟨0, 0, 0⟩ : pollfd)).set 0 ⟨listen_sd, POLLIN, 0⟩
    nfds := 1
    end_server := 0
    compress_array := 1
    trace := [] }

/-- The loop run on the answers of the environment for the successive rounds. The
boolean tells whether the loop has been left; it is false when the answers are
used up while the loop is still running. -/
def serverLoop (listen_sd : Int) : List RoundInput → State → Except Fault (State × Bool)
  | [], s => .ok (s, false)
  | inp :: rest, s =>
    match iteration listen_sd inp s with
    | .error e => .error e
    | .ok (s1, true) => serverLoop listen_sd rest s1
    | .ok (s1, false) => .ok (s1, true)

/-- The final loop `for (i = ...; i < nfds; i++) if (fds[i].fd >= 0) close(fds[i].fd);`
with `n = nfds - i` iterations left. -/
def cleanupLoop : Nat → Nat → State → Except Fault State
  | 0, _, s => .ok s
  | n + 1, i, s =>
    match rd s.fds i with
    | .error e => .error e
    | .ok p =>
      if p.fd ≥ 0 then cleanupLoop n (i + 1) { s with trace := s.trace ++ [Event.close p.fd] }
      else cleanupLoop n (i + 1) s

/-- The cleanup after the loop (lines 315-318). -/
def cleanup (s : State) : Except Fault State :=
  cleanupLoop s.nfds 0 s

/-! ## Observations -/

/-- The handles held by the slots of an array, in slot order. -/
def handles (fds : List pollfd) : List Int :=
  fds.map (·.fd)

/-- The handles of the active slots `[0, nfds)`. -/
def live (s : State) : List Int :=
  (handles s.fds).take s.nfds

/-- The handles returned by successful `accept` calls of a trace. -/
def accepted (tr : List Event) : List Int :=
  tr.filterMap (fun e => match e with
    | Event.accept h => if h < 0 then none else some h
    | _ => none)

/-- The handles closed in a trace. -/
def closed (tr : List Event) : List Int :=
  tr.filterMap (fun e => match e with
    | Event.close h => some h
    | _ => none)

/-- The handles on which a trace receives or sends. -/
def serviced (tr : List Event) : List Int :=
  tr.filterMap (fun e => match e with
    | Event.recv h _ => some h
    | Event.send h _ => some h
    | _ => none)

/-- The handles that the accept-drain loop appends for a list of `accept` results:
the values returned before the first negative one. -/
def acceptedOf : List SysRet → List Int
  | [] => []
  | r :: rest => if r.ret < 0 then [] else r.ret :: acceptedOf rest

/-- Whether the accept-drain loop ends on a failure other than `EWOULDBLOCK`. -/
def acceptFails : List SysRet → Bool
  | [] => false
  | r :: rest => if r.ret < 0 then r.errno != EWOULDBLOCK else acceptFails rest

/-- The `accept` calls of the accept-drain loop. -/
def acceptEvents : List SysRet → List Event
  | [] => [Event.accept (-1)]
  | r :: rest =>
    if r.ret < 0 then [Event.accept r.ret] else Event.accept r.ret :: acceptEvents rest

/-- Whether the answers of the environment make the service cycle of slot `i` read past
the end of `buffer`: the receive delivers data, and after the replacement of a final
newline the buffer holds no zero byte. -/
def overreads (inp : RoundInput) (i : Nat) : Bool :=
  match inp.recv i with
  | .error _ => false
  | .data bytes =>
    let buffer := recvBuffer bytes
    let rc := min bytes.length MAX_BUFF
    rc != 0 &&
      !(if buffer.getD (rc - 1) 0 == 10 then buffer.set (rc - 1) 0 else buffer).contains 0

/-- Whether the readiness flags `rv k` of slot `k` are "readable" and the answers of
the environment make the service cycle of that slot read past the end of `buffer`. -/
def faulting (inp : RoundInput) (rv : Nat → Int) (k : Nat) : Bool :=
  rv k == POLLIN && overreads inp k

/-- Whether the answers of the environment make the service cycle of slot `i` end in
closure: receive error other than would-block, zero-byte receive, or send failure. -/
def closesConn (inp : RoundInput) (i : Nat) : Bool :=
  match inp.recv i with
  | .error errno => errno != EWOULDBLOCK
  | .data bytes => min bytes.length MAX_BUFF == 0 || decide (inp.send i < 0)

/-- Whether the readiness flags `rv k` of slot `k` are "readable" and the answers of
the environment make the service cycle of that slot end in closure. -/
def closing (inp : RoundInput) (rv : Nat → Int) (k : Nat) : Bool :=
  rv k == POLLIN && closesConn inp k

/-- Whether the readiness flags `rv k` of slot `k` are unexpected: neither 0 nor
`POLLIN`. -/
def bad (rv : Nat → Int) (k : Nat) : Bool :=
  rv k != 0 && rv k != POLLIN

/-- What the dispatch loop over `n` connection slots from slot `i` does to a state
`st`: it stops at the slot `b` (at the first unexpected `revents`, or after the last
slot), the slots before `b` whose cycle ends in closure hold -1, and the calls made
are `evs`. -/
structure LoopPost (inp : RoundInput) (rv : Nat → Int) (n i : Nat) (st st1 : State) (b : Nat)
    (evs : List Event) : Prop where
  lo : i ≤ b
  hi : b ≤ i + n
  good : ∀ k, i ≤ k → k < b → bad rv k = false
  stop : b < i + n → bad rv b = true
  endFlag : st1.end_server = (if b < i + n then 1 else st.end_server)
  count : st1.nfds = st.nfds
  slots : ∀ k, st1.fds[k]? = (st.fds[k]?).map
    (fun p => if i ≤ k ∧ k < b ∧ closing inp rv k = true then { p with fd := -1 } else p)
  flag : st1.compress_array =
    (if (List.range' i (b - i)).any (closing inp rv) then 1 else st.compress_array)
  tr : st1.trace = st.trace ++ evs
  acc : accepted evs = []
  cl : closed evs = (List.range' i (b - i)).filterMap
    (fun k => if closing inp rv k then (handles st.fds)[k]? else none)
  sv : ∀ h ∈ serviced evs, ∃ k, i ≤ k ∧ k < b ∧ (handles st.fds)[k]? = some h

/-- The states of the loop at round boundaries, with the flag telling whether the loop
goes on from there: the state in which the loop is entered (the listening descriptor
is non-negative there, line 48), and the state after each round, started where the
loop goes on, that ends without a fault (no access outside `fds` or `buffer`). -/
inductive Reachable (listen_sd : Int) : State → Bool → Prop where
  | init : 0 ≤ listen_sd → Reachable listen_sd (initState listen_sd) true
  | round (s s1 : State) (inp : RoundInput) (c : Bool) :
      Reachable listen_sd s true → iteration listen_sd inp s = .ok (s1, c) →
      Reachable listen_sd s1 c

/-- The `accept` results of a burst of `n` connections: the handles 4, 5, ... -/
def burst (n : Nat) : List SysRet :=
  (List.range n).map (fun k => SysRet.mk (Int.ofNat k + 4) 0)

/-- A round in which only the listening slot is readable and `n` connections are pending. -/
def burstRound (n : Nat) : RoundInput :=
  ⟨1, [POLLIN], fun _ => burst n, fun _ => RecvResult.error EWOULDBLOCK, fun _ => 0⟩

/-- A state with three active slots: the listening descriptor 3 and the connections 4
and 5. -/
def threeSlots : State :=
  ⟨[⟨3, 1, 0⟩, ⟨4, 1, 0⟩, ⟨5, 1, 0⟩] ++ List.replicate 197 ⟨0, 0, 0⟩, 3, 0, 0, []⟩

/-- A round in which `poll` reports `POLLERR` (8) on slot 1 and `POLLIN` on slot 2,
where the two bytes "hi" are pending. -/
def errorRound : RoundInput :=
  ⟨2, [0, 8, 1], fun _ => [], fun _ => RecvResult.data [104, 105], fun _ => 2⟩

/-- The readiness flags that `poll` reports for slot `k` in a round. -/
def flagsOf (inp : RoundInput) (k : Nat) : Int :=
  inp.revents.getD k 0

/-- The handles accepted in a round in which slot 0 is the only listening slot. -/
def acceptedNow (inp : RoundInput) : List Int :=
  if flagsOf inp 0 == POLLIN then acceptedOf (inp.accepts 0) else []

/-- Whether `accept` fails with an error other than `EWOULDBLOCK` in such a round. -/
def acceptFailsNow (inp : RoundInput) : Bool :=
  flagsOf inp 0 == POLLIN && acceptFails (inp.accepts 0)

/-- A state at a round boundary: the array has `MAX_FDS` slots, slot 0 holds the
listening descriptor, and the other active slots hold connection handles
(non-negative, different from the listening descriptor). -/
structure WF (L : Int) (s : State) : Prop where
  len : s.fds.length = MAX_FDS
  pos : 1 ≤ s.nfds
  cap : s.nfds ≤ MAX_FDS
  listen : (handles s.fds)[0]? = some L
  nonneg : 0 ≤ L
  conns : ∀ k h, 1 ≤ k → k < s.nfds → (handles s.fds)[k]? = some h → 0 ≤ h ∧ h ≠ L

/-- What the dispatch of a round does to a well-formed state `s`: it stops at the slot
`b`, the connection slots before `b` whose cycle ends in closure hold -1, the accepted
handles are appended with interest `POLLIN`, and the calls made are `evs`. -/
structure RoundPost (inp : RoundInput) (s s2 : State) (b : Nat) (evs : List Event) : Prop where
  hi : b ≤ s.nfds
  good : ∀ k, k < b → bad (flagsOf inp) k = false
  stop : b < s.nfds → bad (flagsOf inp) b = true
  endFlag : s2.end_server =
    (if b < s.nfds ∨ acceptFailsNow inp = true then 1 else s.end_server)
  count : s2.nfds = s.nfds + (acceptedNow inp).length
  len : s2.fds.length = MAX_FDS
  old : ∀ k, k < s.nfds → (handles s2.fds)[k]? = ((handles s.fds)[k]?).map
    (fun h => if 1 ≤ k ∧ k < b ∧ closing inp (flagsOf inp) k = true then -1 else h)
  new : ∀ k, k < (acceptedNow inp).length → ∃ p, s2.fds[s.nfds + k]? = some p ∧
    p.fd = (acceptedNow inp).getD k 0 ∧ p.events = POLLIN
  flag : s2.compress_array =
    (if (List.range' 1 (b - 1)).any (closing inp (flagsOf inp)) then 1 else s.compress_array)
  tr : s2.trace = s.trace ++ evs
  acc : accepted evs = acceptedNow inp
  cl : closed evs = (List.range' 1 (b - 1)).filterMap
    (fun k => if closing inp (flagsOf inp) k then (handles s.fds)[k]? else none)
  sv : ∀ h ∈ serviced evs, ∃ k, 1 ≤ k ∧ k < b ∧ (handles s.fds)[k]? = some h

/-- A round on three active slots in which the listening slot and slot 2 are readable:
two connections (handles 6 and 7) are pending, then `accept` reports `EWOULDBLOCK`;
the connection of slot 2 has sent "hi". -/
def burstOfTwo : RoundInput :=
  ⟨2, [1, 0, 1], fun _ => [⟨6, 0⟩, ⟨7, 0⟩, ⟨-1, 11⟩], fun _ => RecvResult.data [104, 105],
    fun _ => 2⟩

/-- Whether slot `k` is a connection slot whose service cycle ends in closure in the
round answered by `inp`. -/
def closes (inp : RoundInput) (k : Nat) : Bool :=
  decide (1 ≤ k) && closing inp (flagsOf inp) k

/-- The handles of a list of slots, starting at slot `k`, with -1 in place of the
handles of the slots selected by `c`. -/
def markClosed (c : Nat → Bool) : Nat → List Int → List Int
  | _, [] => []
  | k, h :: t => (if c k then -1 else h) :: markClosed c (k + 1) t

/-- The handles of a list of slots, starting at slot `k`, without those of the slots
selected by `c`, in their order. -/
def survivors (c : Nat → Bool) : Nat → List Int → List Int
  | _, [] => []
  | k, h :: t => if c k then survivors c (k + 1) t else h :: survivors c (k + 1) t

/-- A round in which slot 1 is readable and its `recv` returns 0: the peer has shut the
connection down. -/
def shutdownRound : RoundInput :=
  ⟨1, [0, 1], fun _ => [], fun _ => RecvResult.data [], fun _ => 0⟩

/-- The state after a first round in which two connections are accepted. -/
def afterBurst : State :=
  ⟨[⟨3, 1, 1⟩, ⟨4, 1, 0⟩, ⟨5, 1, 0⟩] ++ List.replicate 197 ⟨0, 0, 0⟩, 3, 0, 0,
    [Event.accept 4, Event.accept 5, Event.accept (-1)]⟩

/-- The accounting of handles in the middle of a round, before slot `i` is dispatched:
the active count is within the array; an active slot holds a non-negative handle, or
-1 with the compaction flag set; the slots from `i` on hold non-negative handles; and
the handles opened so far (the listening descriptor and the accepted ones) are, counted
with multiplicity, the handles closed so far and the non-negative handles of the
active slots. -/
structure Mid (L : Int) (i : Nat) (s : State) : Prop where
  bound : s.nfds ≤ s.fds.length
  marks : ∀ h ∈ live s, 0 ≤ h ∨ (h = -1 ∧ s.compress_array ≠ 0)
  rest : ∀ k h, i ≤ k → (live s)[k]? = some h → 0 ≤ h
  perm : List.Perm (L :: accepted s.trace)
    (closed s.trace ++ (live s).filter (fun h => decide (0 ≤ h)))

/-- A round in which `poll` times out. -/
def timeoutRound : RoundInput :=
  ⟨0, [], fun _ => [], fun _ => RecvResult.error EWOULDBLOCK, fun _ => 0⟩

/-- The calls of a service cycle on the descriptor `fd` before a possible `close`. -/
def cycleEvents (inp : RoundInput) (i : Nat) (fd : Int) : List Event :=
  match inp.recv i with
  | .error _ => [Event.recv fd (-1)]
  | .data bytes =>
    let buffer := recvBuffer bytes
    let rc := min bytes.length MAX_BUFF
    if rc == 0 then [Event.recv fd rc]
    else
      [Event.recv fd rc, Event.send fd
        ((if buffer.getD (rc - 1) 0 == 10 then buffer.set (rc - 1) 0 else buffer).take rc)]

/-- The array has `MAX_FDS` slots, the active count lies between 1 and `MAX_FDS`, and
slot 0 holds the listening descriptor. -/
structure SlotZero (L : Int) (s : State) : Prop where
  len : s.fds.length = MAX_FDS
  pos : 1 ≤ s.nfds
  cap : s.nfds ≤ MAX_FDS
  listen : (handles s.fds)[0]? = some L

/-- An array of `MAX_FDS` slots with four active ones, the third of them closed. -/
def sampleFds : List pollfd :=
  [⟨3, 1, 0⟩, ⟨4, 1, 0⟩, ⟨-1, 1, 0⟩, ⟨6, 1, 0⟩] ++ List.replicate 196 ⟨0, 0, 0⟩

/-- A full array: the listening descriptor 3 in slot 0, the connections 4, 5, ... in
the slots after it, the connection of the last slot closed in this round. -/
def fullFds : List pollfd :=
  (List.range 199).map (fun k => pollfd.mk (Int.ofNat k + 3) 1 0) ++ [⟨-1, 1, 0⟩]

/-! ## The service cycle: what is handed to send -/

theorem recvBuffer_of_le (bytes : List Nat) (h : bytes.length ≤ MAX_BUFF) :
    recvBuffer bytes = bytes ++ List.replicate (MAX_BUFF - bytes.length) 0 := by
  unfold recvBuffer
  rw [List.take_of_length_le h]

theorem recvBuffer_take (bytes : List Nat) (h : bytes.length ≤ MAX_BUFF) :
    (recvBuffer bytes).take bytes.length = bytes := by
  rw [recvBuffer_of_le bytes h, List.take_left]

theorem recvBuffer_last (bytes : List Nat) (h : bytes.length ≤ MAX_BUFF) (hpos : 1 ≤ bytes.length) :
    (recvBuffer bytes).getD (bytes.length - 1) 0 = bytes.getLastD 0 := by
  rw [recvBuffer_of_le bytes h]
  have hlt : bytes.length - 1 < bytes.length := by omega
  rw [List.getD_eq_getElem?_getD, List.getElem?_append_left hlt]
  cases bytes using List.reverseRecOn with
  | nil => simp at hpos
  | append_singleton l a => simp

theorem recvBuffer_length (bytes : List Nat) : (recvBuffer bytes).length = MAX_BUFF := by
  unfold recvBuffer
  rw [List.length_append, List.length_take, List.length_replicate]
  omega

theorem contains_iff_mem (l : List Nat) (a : Nat) : l.contains a = true ↔ a ∈ l := by
  simp [List.contains]

theorem recvBuffer_contains_zero (bytes : List Nat) (hle : bytes.length ≤ MAX_BUFF)
    (hz : bytes.length < MAX_BUFF ∨ 0 ∈ bytes) : (recvBuffer bytes).contains 0 = true := by
  rw [recvBuffer_of_le bytes hle]
  simp only [contains_iff_mem, List.mem_append, List.mem_replicate]
  rcases hz with hz | hz
  · right; exact ⟨by omega, trivial⟩
  · left; exact hz

theorem recvBuffer_full (bytes : List Nat) (hlen : bytes.length = MAX_BUFF) :
    recvBuffer bytes = bytes := by
  rw [recvBuffer_of_le bytes (le_of_eq hlen), hlen]
  simp

/-- A service cycle whose receive delivers `n` bytes, `1 ≤ n ≤ MAX_BUFF`, the last of
which is not a newline, and either fewer than `MAX_BUFF` bytes or a zero byte among
them, hands to `send`, on the same descriptor, exactly the received bytes: the calls of
the cycle are the `recv`, the `send` of these bytes and, only when `send` fails, the
`close` of the connection. -/
theorem serviceCycle_echo_unchanged (inp : RoundInput) (i : Nat) (s : State) (p : pollfd)
    (bytes : List Nat) (hslot : s.fds[i]? = some p) (hrecv : inp.recv i = RecvResult.data bytes)
    (hpos : 1 ≤ bytes.length) (hle : bytes.length ≤ MAX_BUFF) (hlast : bytes.getLastD 0 ≠ 10)
    (hz : bytes.length < MAX_BUFF ∨ 0 ∈ bytes) :
    ∃ s1, serviceCycle inp i s = .ok s1 ∧
      s1.trace = s.trace ++ [Event.recv p.fd bytes.length, Event.send p.fd bytes] ++
        (if inp.send i < 0 then [Event.close p.fd] else []) := by
  have hmin : min bytes.length MAX_BUFF = bytes.length := Nat.min_eq_left hle
  have hne : bytes.length ≠ 0 := by omega
  simp only [serviceCycle, cString, rd, hslot, hrecv, hmin, recvBuffer_last bytes hle hpos,
    beq_iff_eq, hlast, if_false, recvBuffer_take bytes hle,
    recvBuffer_contains_zero bytes hle hz, if_true]
  by_cases hs : inp.send i < 0
  · simp [hs, hne, closeConn, rd, setFd, hslot]
  · simp [hs, hne]

/-- The echo of the 5 bytes of "hello" received on descriptor 4. -/
theorem serviceCycle_echo_unchanged_witness :
    ∃ s1, serviceCycle ⟨1, [0, 1], fun _ => [], fun _ => RecvResult.data [104, 101, 108, 108, 111],
        fun _ => 5⟩ 1 ⟨[⟨3, 1, 1⟩, ⟨4, 1, 1⟩, ⟨0, 0, 0⟩], 2, 0, 0, []⟩ = .ok s1 ∧
      s1.trace = [] ++ [Event.recv 4 ([104, 101, 108, 108, 111] : List Nat).length,
        Event.send 4 [104, 101, 108, 108, 111]] ++
        (if (5 : Int) < 0 then [Event.close 4] else []) :=
  serviceCycle_echo_unchanged ⟨1, [0, 1], fun _ => [], fun _ => RecvResult.data [104, 101, 108, 108, 111],
        fun _ => 5⟩ 1 ⟨[⟨3, 1, 1⟩, ⟨4, 1, 1⟩, ⟨0, 0, 0⟩], 2, 0, 0, []⟩ ⟨4, 1, 1⟩ [104, 101, 108, 108, 111]
    rfl rfl (by decide) (by decide) (by decide) (Or.inl (by decide))

/-- A service cycle whose receive fills the buffer (`MAX_BUFF` bytes) with bytes none of
which is zero, the last of them not a newline, reads past the end of `buffer` in the
`printf` of line 263, before anything is handed to `send`. -/
theorem serviceCycle_overread (inp : RoundInput) (i : Nat) (s : State) (p : pollfd)
    (bytes : List Nat) (hslot : s.fds[i]? = some p) (hrecv : inp.recv i = RecvResult.data bytes)
    (hlen : bytes.length = MAX_BUFF) (hlast : bytes.getLastD 0 ≠ 10) (hz : 0 ∉ bytes) :
    serviceCycle inp i s = .error (Fault.bufferOutOfBounds MAX_BUFF) := by
  have hle : bytes.length ≤ MAX_BUFF := le_of_eq hlen
  have hpos : 1 ≤ bytes.length := by rw [hlen]; decide
  have hmin : min bytes.length MAX_BUFF = bytes.length := Nat.min_eq_left hle
  have hne : (bytes.length == 0) = false := by rw [hlen]; decide
  have hc : bytes.contains 0 = false := by
    rw [Bool.eq_false_iff]
    intro h
    exact hz ((contains_iff_mem bytes 0).mp h)
  have hg : bytes.getD (bytes.length - 1) 0 = bytes.getLastD 0 := by
    have := recvBuffer_last bytes hle hpos
    rw [recvBuffer_full bytes hlen] at this
    exact this
  simp only [serviceCycle, cString, rd, hslot, hrecv, hmin, recvBuffer_full bytes hlen, hg,
    beq_iff_eq, hlast, if_false, hne, Bool.false_eq_true, hc]
  rw [hlen]

/-- C2 (the code at the failing input): a service cycle whose receive fills the buffer
with 1024 bytes 'a' (no newline at the end, no zero byte) reads past `buffer[1023]` in
the `printf` of line 263 before it hands anything to `send`. -/
theorem serviceCycle_full_buffer_overread :
    serviceCycle ⟨1, [0, 1], fun _ => [], fun _ => RecvResult.data (List.replicate 1024 97),
        fun _ => 1024⟩ 1 ⟨[⟨3, 1, 1⟩, ⟨4, 1, 1⟩, ⟨0, 0, 0⟩], 2, 0, 0, []⟩
      = .error (Fault.bufferOutOfBounds MAX_BUFF) := by
  have h1 : (List.replicate 1024 (97 : Nat)).length = MAX_BUFF := by
    rw [List.length_replicate]; rfl
  have h2 : (List.replicate 1024 (97 : Nat)).getLastD 0 ≠ 10 := by
    rw [show List.replicate 1024 (97 : Nat) = List.replicate 1023 97 ++ [97] from
      List.replicate_succ' 1023 97, List.getLastD_concat]
    decide
  have h3 : 0 ∉ List.replicate 1024 (97 : Nat) := by
    intro h
    have := List.eq_of_mem_replicate h
    omega
  exact serviceCycle_overread
    ⟨1, [0, 1], fun _ => [], fun _ => RecvResult.data (List.replicate 1024 97), fun _ => 1024⟩ 1
    ⟨[⟨3, 1, 1⟩, ⟨4, 1, 1⟩, ⟨0, 0, 0⟩], 2, 0, 0, []⟩ ⟨4, 1, 1⟩ (List.replicate 1024 97) rfl rfl
    h1 h2 h3

/-- C1 (the code at the failing input): a service cycle that receives the 6 bytes
of "hello\n" hands 6 bytes to `send`, the newline replaced by a zero byte, not the
5 bytes of "hello". -/
theorem serviceCycle_hello_newline :
    (serviceCycle ⟨1, [0, 1], fun _ => [], fun _ => RecvResult.data [104, 101, 108, 108, 111, 10],
        fun _ => 6⟩ 1 ⟨[⟨3, 1, 1⟩, ⟨4, 1, 1⟩, ⟨0, 0, 0⟩], 2, 0, 0, []⟩).map (fun s => s.trace)
      = .ok [Event.recv 4 6, Event.send 4 [104, 101, 108, 108, 111, 0]] := by
  decide

/-! ## Array access lemmas -/

theorem rd_eq_ok {fds : List pollfd} {i : Nat} {p : pollfd} :
    rd fds i = .ok p ↔ fds[i]? = some p := by
  unfold rd
  cases h : fds[i]? <;> simp

theorem rd_eq_error {fds : List pollfd} {i : Nat} {e : Fault} :
    rd fds i = .error e ↔ fds.length ≤ i ∧ e = Fault.outOfBounds i := by
  unfold rd
  cases h : fds[i]? with
  | none =>
    have := List.getElem?_eq_none_iff.mp h
    simp [this, eq_comm]
  | some p =>
    have := (List.getElem?_eq_some.mp h).1
    simp
    omega

theorem setFd_eq_ok {fds fds1 : List pollfd} {i : Nat} {v : Int} :
    setFd fds i v = .ok fds1 ↔ ∃ p, fds[i]? = some p ∧ fds1 = fds.set i { p with fd := v } := by
  unfold setFd
  cases h : fds[i]? <;> simp [eq_comm]

theorem setEvents_eq_ok {fds fds1 : List pollfd} {i : Nat} {v : Int} :
    setEvents fds i v = .ok fds1 ↔
      ∃ p, fds[i]? = some p ∧ fds1 = fds.set i { p with events := v } := by
  unfold setEvents
  cases h : fds[i]? <;> simp [eq_comm]

theorem handles_set_fd (fds : List pollfd) (i : Nat) (p : pollfd) (v : Int) :
    handles (fds.set i { p with fd := v }) = (handles fds).set i v := by
  simp [handles, List.map_set]

theorem handles_getElem? (fds : List pollfd) (i : Nat) :
    (handles fds)[i]? = fds[i]?.map (·.fd) := by
  simp [handles]

theorem handles_length (fds : List pollfd) : (handles fds).length = fds.length := by
  simp [handles]

/-! ## Compaction lemmas -/

theorem shiftLoop_spec : ∀ (n j : Nat) (fds fds1 : List pollfd), shiftLoop n j fds = .ok fds1 →
    fds1.length = fds.length ∧ (0 < n → j + n < fds.length) ∧
    ∀ k, (handles fds1)[k]? =
      if j ≤ k ∧ k < j + n then (handles fds)[k + 1]? else (handles fds)[k]? := by
  intro n
  induction n with
  | zero =>
    intro j fds fds1 h
    simp only [shiftLoop, Except.ok.injEq] at h
    subst h
    refine ⟨rfl, by simp, fun k => ?_⟩
    rw [if_neg (by omega)]
  | succ n ih =>
    intro j fds fds1 h
    unfold shiftLoop at h
    cases hq : rd fds (j + 1) with
    | error e => simp [hq] at h
    | ok q =>
      simp only [hq] at h
      cases hw : setFd fds j q.fd with
      | error e => simp [hw] at h
      | ok fds2 =>
        simp only [hw] at h
        obtain ⟨p, hp, rfl⟩ := setFd_eq_ok.mp hw
        have hq1 := rd_eq_ok.mp hq
        obtain ⟨hlen, hbd, hk⟩ := ih (j + 1) _ fds1 h
        have hj1 : j + 1 < fds.length := (List.getElem?_eq_some.mp hq1).1
        refine ⟨by simpa using hlen, ?_, fun k => ?_⟩
        · intro _
          rcases Nat.eq_zero_or_pos n with h0 | h0
          · subst h0; simpa using hj1
          · have := hbd h0
            simp at this
            omega
        · rw [hk k, handles_set_fd]
          have hqh : (handles fds)[j + 1]? = some q.fd := by
            rw [handles_getElem?, hq1]; rfl
          have hjl : j < (handles fds).length := by rw [handles_length]; omega
          by_cases hkj : k = j
          · subst hkj
            simp [List.getElem?_set, hjl, hqh]
          · by_cases hin : j + 1 ≤ k ∧ k < j + 1 + n
            · have h1 : j ≤ k ∧ k < j + (n + 1) := by omega
              rw [if_pos hin, if_pos h1, List.getElem?_set_ne (by omega)]
            · have h1 : ¬ (j ≤ k ∧ k < j + (n + 1)) := by omega
              rw [if_neg hin, if_neg h1, List.getElem?_set_ne (by omega)]

theorem shiftLoop_total : ∀ (n j : Nat) (fds : List pollfd), j + n < fds.length →
    ∃ fds1, shiftLoop n j fds = .ok fds1 := by
  intro n
  induction n with
  | zero => intro j fds _; exact ⟨fds, rfl⟩
  | succ n ih =>
    intro j fds h
    unfold shiftLoop
    have hj1 : j + 1 < fds.length := by omega
    have hj : j < fds.length := by omega
    simp only [rd, setFd, List.getElem?_eq_getElem hj1, List.getElem?_eq_getElem hj]
    exact ih (j + 1) _ (by simp; omega)

theorem shiftLoop_overrun : ∀ (n j : Nat) (fds : List pollfd), j + (n + 1) = fds.length →
    shiftLoop (n + 1) j fds = .error (Fault.outOfBounds fds.length) := by
  intro n
  induction n with
  | zero =>
    intro j fds h
    have : fds[j + 1]? = none := List.getElem?_eq_none (by omega)
    simp [shiftLoop, rd, this, h]
  | succ n ih =>
    intro j fds h
    unfold shiftLoop
    have hj1 : j + 1 < fds.length := by omega
    have hj : j < fds.length := by omega
    simp only [rd, setFd, List.getElem?_eq_getElem hj1, List.getElem?_eq_getElem hj]
    have := ih (j + 1) (fds.set j { fds[j] with fd := fds[j + 1].fd }) (by simp; omega)
    simpa using this

theorem compressLoop_spec : ∀ (fuel i nfds : Nat) (fds : List pollfd) (r : List pollfd × Nat),
    compressLoop fuel i nfds fds = .ok r → i ≤ nfds →
    r.1.length = fds.length ∧ i ≤ r.2 ∧ r.2 ≤ nfds ∧
    (handles r.1).take r.2 = (handles fds).take i ++
      (((handles fds).take nfds).drop i).filter (fun h => h != -1) := by
  intro fuel
  induction fuel with
  | zero => intro i nfds fds r h; simp [compressLoop] at h
  | succ fuel ih =>
    intro i nfds fds r h hi
    unfold compressLoop at h
    by_cases hlt : i < nfds
    · simp only [hlt, if_true] at h
      cases hp : rd fds i with
      | error e => simp [hp] at h
      | ok p =>
        simp only [hp] at h
        have hp1 := rd_eq_ok.mp hp
        have hil : i < fds.length := (List.getElem?_eq_some.mp hp1).1
        have hhi : (handles fds)[i]? = some p.fd := by rw [handles_getElem?, hp1]; rfl
        have hdrop : ((handles fds).take nfds).drop i =
            p.fd :: ((handles fds).take nfds).drop (i + 1) := by
          apply List.ext_getElem?
          intro k
          cases k with
          | zero => simp [List.getElem?_drop, List.getElem?_take, hlt, hhi]
          | succ k =>
            simp only [List.getElem?_drop, List.getElem?_cons_succ]
            congr 1
            omega
        by_cases hm : p.fd = -1
        · simp only [hm, beq_self_eq_true, if_true] at h
          cases hs : shiftLoop (nfds - i) i fds with
          | error e => simp [hs] at h
          | ok fds1 =>
            simp only [hs] at h
            obtain ⟨hlen, _, hk⟩ := shiftLoop_spec _ _ _ _ hs
            obtain ⟨h1, h2, h3, h4⟩ := ih i (nfds - 1) fds1 r h (by omega)
            have ha : (handles fds1).take i = (handles fds).take i := by
              apply List.ext_getElem?
              intro k
              simp only [List.getElem?_take]
              by_cases hki : k < i
              · rw [if_pos hki, if_pos hki, hk k, if_neg (by omega)]
              · rw [if_neg hki, if_neg hki]
            have hb : ((handles fds1).take (nfds - 1)).drop i =
                ((handles fds).take nfds).drop (i + 1) := by
              apply List.ext_getElem?
              intro k
              simp only [List.getElem?_drop, List.getElem?_take]
              by_cases hkk : i + k < nfds - 1
              · rw [if_pos hkk, if_pos (by omega), hk, if_pos (by omega)]
                congr 1
                omega
              · rw [if_neg hkk, if_neg (by omega)]
            refine ⟨by omega, h2, by omega, ?_⟩
            rw [h4, hdrop, hm, ha, hb]
            simp
        · have hb : (p.fd == -1) = false := by simpa using hm
          simp only [hb] at h
          obtain ⟨h1, h2, h3, h4⟩ := ih (i + 1) nfds fds r h (by omega)
          refine ⟨h1, by omega, h3, ?_⟩
          rw [h4, hdrop, List.take_succ, hhi]
          simp [hm]
    · simp only [hlt, if_false, Except.ok.injEq] at h
      subst h
      have : i = nfds := by omega
      subst this
      have hd : List.drop i (List.take i (handles fds)) = [] := by
        rw [List.drop_eq_nil_iff]
        simp
      simp [hd]

theorem compressLoop_total : ∀ (fuel i nfds : Nat) (fds : List pollfd),
    nfds < fds.length → i ≤ nfds → nfds - i < fuel →
    ∃ r, compressLoop fuel i nfds fds = .ok r := by
  intro fuel
  induction fuel with
  | zero => intro i nfds fds _ _ h; omega
  | succ fuel ih =>
    intro i nfds fds hl hi hf
    unfold compressLoop
    by_cases hlt : i < nfds
    · have hil : i < fds.length := by omega
      simp only [hlt, if_true, rd, List.getElem?_eq_getElem hil]
      by_cases hm : (fds[i].fd == -1) = true
      · simp only [hm, if_true]
        obtain ⟨fds1, hs⟩ := shiftLoop_total (nfds - i) i fds (by omega)
        have hlen := (shiftLoop_spec _ _ _ _ hs).1
        simp only [hs]
        exact ih i (nfds - 1) fds1 (by omega) (by omega) (by omega)
      · simp only [hm]
        exact ih (i + 1) nfds fds hl (by omega) (by omega)
    · simp [hlt]

theorem compressLoop_overrun : ∀ (fuel i nfds : Nat) (fds : List pollfd),
    nfds = fds.length → nfds - i < fuel →
    (∃ k, i ≤ k ∧ k < nfds ∧ (handles fds)[k]? = some (-1)) →
    compressLoop fuel i nfds fds = .error (Fault.outOfBounds fds.length) := by
  intro fuel
  induction fuel with
  | zero => intro i nfds fds _ h; omega
  | succ fuel ih =>
    intro i nfds fds hl hf hex
    obtain ⟨k, hik, hkn, hk⟩ := hex
    unfold compressLoop
    have hlt : i < nfds := by omega
    have hil : i < fds.length := by omega
    simp only [hlt, if_true, rd, List.getElem?_eq_getElem hil]
    by_cases hm : (fds[i].fd == -1) = true
    · simp only [hm, if_true]
      have hn : nfds - i = (nfds - i - 1) + 1 := by omega
      rw [hn, shiftLoop_overrun (nfds - i - 1) i fds (by omega)]
    · simp only [hm]
      have hne : k ≠ i := by
        rintro rfl
        rw [handles_getElem?, List.getElem?_eq_getElem hil] at hk
        simp at hk
        simp [hk] at hm
      exact ih (i + 1) nfds fds hl (by omega) ⟨k, by omega, hkn, hk⟩

theorem length_filter_ne (a : Int) (l : List Int) :
    (l.filter (fun h => h != a)).length = l.length - l.count a := by
  induction l with
  | nil => rfl
  | cons x t ih =>
    have hc := List.count_le_length a t
    by_cases hx : x = a
    · subst hx
      simp [ih]
    · have hx1 : (x != a) = true := by simpa using hx
      simp only [List.filter_cons, hx1, if_true, List.length_cons, ih]
      rw [List.count_cons_of_ne (Ne.symm hx)]
      omega

theorem sampleFds_length : sampleFds.length = MAX_FDS := by
  unfold sampleFds MAX_FDS
  rw [List.length_append, List.length_replicate]
  rfl

/-- C4: on the array of `MAX_FDS` slots with an active count `nfds < MAX_FDS`, the
compaction loops end without leaving the array, and afterwards the active slots hold
exactly the handles other than -1 of the active slots before, in their order; the new
count is the old one minus the number of active slots that held -1. -/
theorem compress_stable_filter (fds : List pollfd) (nfds : Nat)
    (hlen : fds.length = MAX_FDS) (hn : nfds < MAX_FDS) :
    ∃ fds1 nfds1, compress fds nfds = .ok (fds1, nfds1) ∧
      (handles fds1).take nfds1 = ((handles fds).take nfds).filter (fun h => h != -1) ∧
      nfds1 = nfds - ((handles fds).take nfds).count (-1) ∧
      fds1.length = MAX_FDS := by
  obtain ⟨r, hr⟩ := compressLoop_total (nfds + 1) 0 nfds fds (by omega) (by omega) (by omega)
  obtain ⟨h1, _, h3, h4⟩ := compressLoop_spec _ _ _ _ _ hr (Nat.zero_le _)
  refine ⟨r.1, r.2, hr, by simpa using h4, ?_, by omega⟩
  have hl := congrArg List.length h4
  simp only [List.take_zero, List.nil_append, List.drop_zero, List.length_take, handles_length,
    length_filter_ne] at hl
  rw [h1, Nat.min_eq_left (by omega), Nat.min_eq_left (by omega)] at hl
  simpa [handles_length, Nat.min_eq_left (show nfds ≤ fds.length by omega)] using hl

/-- The statement of C4 at an array with four active slots, one of them closed. -/
theorem compress_stable_filter_witness :
    sampleFds.length = MAX_FDS ∧ 4 < MAX_FDS ∧
    ∃ fds1 nfds1, compress sampleFds 4 = .ok (fds1, nfds1) ∧
      (handles fds1).take nfds1 = ((handles sampleFds).take 4).filter (fun h => h != -1) ∧
      nfds1 = 4 - ((handles sampleFds).take 4).count (-1) ∧
      fds1.length = MAX_FDS :=
  ⟨sampleFds_length, by decide,
    compress_stable_filter sampleFds 4 sampleFds_length (by decide)⟩

/-- C10 (the code at the failing input): with the array full (`nfds = MAX_FDS`) and
the last slot closed, the shift `fds[j].fd = fds[j + 1].fd` of the compaction reads
the slot of index `MAX_FDS`, outside the array. -/
theorem compress_full_array_overrun :
    fullFds.length = MAX_FDS ∧
    compress fullFds MAX_FDS = .error (Fault.outOfBounds MAX_FDS) := by
  have hl : fullFds.length = MAX_FDS := by simp [fullFds, MAX_FDS]
  refine ⟨hl, ?_⟩
  have h := compressLoop_overrun (MAX_FDS + 1) 0 MAX_FDS fullFds hl.symm (by omega)
    ⟨199, by omega, by decide, by
      rw [handles_getElem?, fullFds, List.getElem?_append_right (by simp)]
      simp⟩
  rw [hl] at h
  exact h

/-! ## The accept-drain loop -/

theorem accepted_append (a b : List Event) : accepted (a ++ b) = accepted a ++ accepted b := by
  simp [accepted]

theorem closed_append (a b : List Event) : closed (a ++ b) = closed a ++ closed b := by
  simp [closed]

theorem serviced_append (a b : List Event) : serviced (a ++ b) = serviced a ++ serviced b := by
  simp [serviced]

theorem acceptedOf_nonneg : ∀ (rs : List SysRet) (h : Int), h ∈ acceptedOf rs → 0 ≤ h := by
  intro rs
  induction rs with
  | nil => intro h hh; simp [acceptedOf] at hh
  | cons r rest ih =>
    intro h hh
    unfold acceptedOf at hh
    by_cases hr : r.ret < 0
    · simp [hr] at hh
    · simp only [hr, if_false, List.mem_cons] at hh
      rcases hh with rfl | hh
      · omega
      · exact ih h hh

theorem acceptEvents_obs : ∀ rs : List SysRet,
    accepted (acceptEvents rs) = acceptedOf rs ∧ closed (acceptEvents rs) = [] ∧
    serviced (acceptEvents rs) = [] := by
  intro rs
  induction rs with
  | nil => simp [acceptEvents, accepted, closed, serviced, acceptedOf]
  | cons r rest ih =>
    unfold acceptEvents acceptedOf
    by_cases hr : r.ret < 0
    · simp [hr, accepted, closed, serviced]
    · obtain ⟨h1, h2, h3⟩ := ih
      simp only [hr, if_false]
      refine ⟨?_, ?_, ?_⟩
      · have : accepted (Event.accept r.ret :: acceptEvents rest) =
            r.ret :: accepted (acceptEvents rest) := by
          simp [accepted, hr]
        rw [this, h1]
      · have : closed (Event.accept r.ret :: acceptEvents rest) = closed (acceptEvents rest) := by
          simp [closed]
        rw [this, h2]
      · have : serviced (Event.accept r.ret :: acceptEvents rest) =
            serviced (acceptEvents rest) := by
          simp [serviced]
        rw [this, h3]

theorem acceptLoop_spec : ∀ (rs : List SysRet) (s s1 : State), acceptLoop rs s = .ok s1 →
    s1.nfds = s.nfds + (acceptedOf rs).length ∧
    s1.fds.length = s.fds.length ∧
    (acceptedOf rs ≠ [] → s1.nfds ≤ s.fds.length) ∧
    s1.compress_array = s.compress_array ∧
    s1.end_server = (if acceptFails rs then 1 else s.end_server) ∧
    s1.trace = s.trace ++ acceptEvents rs ∧
    (∀ k, k < s.nfds ∨ s1.nfds ≤ k → s1.fds[k]? = s.fds[k]?) ∧
    (∀ k, s.nfds ≤ k → k < s1.nfds → ∃ p, s.fds[k]? = some p ∧
      s1.fds[k]? = some { p with fd := (acceptedOf rs).getD (k - s.nfds) 0, events := POLLIN }) := by
  intro rs
  induction rs with
  | nil =>
    intro s s1 h
    simp only [acceptLoop, Except.ok.injEq] at h
    subst h
    simp [acceptedOf, acceptFails, acceptEvents]
    intro k h1 h2
    omega
  | cons r rest ih =>
    intro s s1 h
    unfold acceptLoop at h
    by_cases hr : r.ret < 0
    · simp only [hr, if_true] at h
      by_cases he : r.errno = EWOULDBLOCK
      · simp only [he, bne_self_eq_false, Bool.false_eq_true, if_false, Except.ok.injEq] at h
        subst h
        simp [acceptedOf, acceptFails, acceptEvents, hr, he]
        intro k h1 h2
        omega
      · have he1 : (r.errno != EWOULDBLOCK) = true := by simpa using he
        simp only [he1, if_true, Except.ok.injEq] at h
        subst h
        simp [acceptedOf, acceptFails, acceptEvents, hr, he1]
        intro k h1 h2
        omega
    · simp only [hr, if_false] at h
      cases hw : setFd s.fds s.nfds r.ret with
      | error e => simp [hw] at h
      | ok fds1 =>
        simp only [hw] at h
        obtain ⟨p0, hp0, rfl⟩ := setFd_eq_ok.mp hw
        have hn : s.nfds < s.fds.length := (List.getElem?_eq_some.mp hp0).1
        cases hv : setEvents (s.fds.set s.nfds { p0 with fd := r.ret }) s.nfds POLLIN with
        | error e => simp [hv] at h
        | ok fds2 =>
          simp only [hv] at h
          obtain ⟨p1, hp1, rfl⟩ := setEvents_eq_ok.mp hv
          have hp1e : p1 = { p0 with fd := r.ret } := by
            rw [List.getElem?_set_self hn] at hp1
            exact (Option.some.inj hp1).symm
          subst hp1e
          have hne : (r.ret != -1) = true := by
            simp only [bne_iff_ne, ne_eq]
            omega
          simp only [hne, if_true, List.set_set] at h
          obtain ⟨h1, h2, h3, h4, h5, h6, h7, h8⟩ := ih _ s1 h
          simp only [List.length_set] at h1 h2 h3 h7 h8
          have hacc : acceptedOf (r :: rest) = r.ret :: acceptedOf rest := by
            simp [acceptedOf, hr]
          refine ⟨?_, h2, ?_, h4, ?_, ?_, ?_, ?_⟩
          · rw [h1, hacc]; simp; omega
          · intro _
            by_cases hrest : acceptedOf rest = []
            · rw [h1, hrest]; simp; omega
            · exact h3 hrest
          · rw [h5]; simp [acceptFails, hr]
          · rw [h6]; simp [acceptEvents, hr]
          · intro k hk
            rw [h7 k (by omega), List.getElem?_set_ne (by omega)]
          · intro k hk1 hk2
            by_cases hkn : k = s.nfds
            · subst hkn
              refine ⟨p0, hp0, ?_⟩
              rw [h7 _ (Or.inl (by omega)), List.getElem?_set_self hn, hacc]
              simp
            · obtain ⟨q, hq, hq1⟩ := h8 k (by omega) hk2
              rw [List.getElem?_set_ne (by omega)] at hq
              refine ⟨q, hq, ?_⟩
              rw [hq1, hacc]
              have : k - s.nfds = (k - (s.nfds + 1)) + 1 := by omega
              rw [this]
              simp

theorem acceptLoop_total : ∀ (rs : List SysRet) (s : State),
    s.nfds + (acceptedOf rs).length ≤ s.fds.length → ∃ s1, acceptLoop rs s = .ok s1 := by
  intro rs
  induction rs with
  | nil => intro s _; exact ⟨_, rfl⟩
  | cons r rest ih =>
    intro s hcap
    unfold acceptLoop
    by_cases hr : r.ret < 0
    · by_cases he : (r.errno != EWOULDBLOCK) = true
      · simp only [hr, if_true, he]
        exact ⟨_, rfl⟩
      · simp only [hr, if_true, he]
        exact ⟨_, rfl⟩
    · have hacc : acceptedOf (r :: rest) = r.ret :: acceptedOf rest := by
        simp [acceptedOf, hr]
      rw [hacc] at hcap
      simp only [List.length_cons] at hcap
      have hn : s.nfds < s.fds.length := by omega
      have hne : (r.ret != -1) = true := by
        simp only [bne_iff_ne, ne_eq]
        omega
      simp only [hr, if_false, setFd, setEvents, List.getElem?_eq_getElem hn, List.length_set,
        List.getElem?_set_self hn, hne, if_true]
      apply ih
      simp only [List.length_set]
      omega

theorem acceptLoop_overflow : ∀ (rs : List SysRet) (s : State),
    s.nfds ≤ s.fds.length → s.fds.length < s.nfds + (acceptedOf rs).length →
    acceptLoop rs s = .error (Fault.outOfBounds s.fds.length) := by
  intro rs
  induction rs with
  | nil => intro s hle h; simp [acceptedOf] at h; omega
  | cons r rest ih =>
    intro s hle hov
    unfold acceptLoop
    by_cases hr : r.ret < 0
    · simp [acceptedOf, hr] at hov
      omega
    · have hacc : acceptedOf (r :: rest) = r.ret :: acceptedOf rest := by
        simp [acceptedOf, hr]
      rw [hacc] at hov
      simp only [List.length_cons] at hov
      have hne : (r.ret != -1) = true := by
        simp only [bne_iff_ne, ne_eq]
        omega
      by_cases hn : s.nfds < s.fds.length
      · simp only [hr, if_false, setFd, setEvents, List.getElem?_eq_getElem hn, List.length_set,
          List.getElem?_set_self hn, hne, if_true]
        have := ih { s with
          fds := (s.fds.set s.nfds { s.fds[s.nfds] with fd := r.ret }).set s.nfds
            { fd := r.ret, events := POLLIN, revents := (s.fds[s.nfds]).revents }
          nfds := s.nfds + 1
          trace := s.trace ++ [Event.accept r.ret] } (by simp; omega) (by simp; omega)
        simpa using this
      · have heq : s.nfds = s.fds.length := by omega
        have hnone : s.fds[s.nfds]? = none := List.getElem?_eq_none (by omega)
        simp [hr, setFd, hnone, heq]

/-! ## One slot of the dispatch loop -/

theorem closeConn_eq (i : Nat) (s : State) (p : pollfd) (hp : s.fds[i]? = some p) :
    closeConn i s = .ok
      { s with fds := s.fds.set i { p with fd := -1 }, compress_array := 1, trace := s.trace ++ [Event.close p.fd] } := by
  simp [closeConn, rd, setFd, hp]

theorem cString_length (buffer : List Nat) (n : Nat) (hlen : buffer.length = n) :
    cString buffer = if buffer.contains 0 then .ok (buffer.takeWhile (fun b => b != 0))
      else .error (Fault.bufferOutOfBounds n) := by
  unfold cString
  rw [hlen]

theorem serviceCycle_cases (inp : RoundInput) (i : Nat) (s : State) (p : pollfd)
    (hp : s.fds[i]? = some p) :
    serviceCycle inp i s = if overreads inp i then .error (Fault.bufferOutOfBounds MAX_BUFF)
      else .ok (if closesConn inp i
        then { s with fds := s.fds.set i { p with fd := -1 }, compress_array := 1, trace := s.trace ++ (cycleEvents inp i p.fd ++ [Event.close p.fd]) }
        else { s with trace := s.trace ++ cycleEvents inp i p.fd }) := by
  unfold serviceCycle closesConn cycleEvents overreads
  simp only [rd, hp]
  cases hr : inp.recv i with
  | error errno =>
    by_cases he : (errno != EWOULDBLOCK) = true
    · simp only [he, if_true]
      simp [closeConn, rd, setFd, hp]
    · simp only [he]
      rfl
  | data bytes =>
    simp only []
    by_cases h0 : (min bytes.length MAX_BUFF == 0) = true
    · have h0n : (min bytes.length MAX_BUFF != 0) = false := by simp [bne, h0]
      simp only [h0, h0n, if_true, Bool.true_or, Bool.false_and, Bool.false_eq_true, if_false]
      simp [closeConn, rd, setFd, hp]
    · have h0n : (min bytes.length MAX_BUFF != 0) = true := by simpa [bne] using h0
      generalize hb : (if (recvBuffer bytes).getD (min bytes.length MAX_BUFF - 1) 0 == 10
        then (recvBuffer bytes).set (min bytes.length MAX_BUFF - 1) 0 else recvBuffer bytes) = buffer1
      have hlen : buffer1.length = MAX_BUFF := by
        rw [← hb]
        split
        · rw [List.length_set, recvBuffer_length]
        · exact recvBuffer_length bytes
      rw [cString_length buffer1 MAX_BUFF hlen]
      by_cases hz : buffer1.contains 0 = true
      · simp only [h0, h0n, hz, if_true, Bool.true_and, Bool.not_true, Bool.false_eq_true,
          if_false, Bool.false_or]
        by_cases hs : inp.send i < 0
        · simp only [hs, if_true, decide_True]
          simp [closeConn, rd, setFd, hp]
        · simp only [hs, if_false, decide_False, Bool.false_eq_true]
          simp
      · simp only [h0, h0n, hz, Bool.true_and, Bool.not_false, if_true, Bool.false_eq_true, if_false]

theorem serviceCycle_eq (inp : RoundInput) (i : Nat) (s : State) (p : pollfd)
    (hp : s.fds[i]? = some p) (hno : overreads inp i = false) :
    serviceCycle inp i s = .ok (if closesConn inp i
      then { s with fds := s.fds.set i { p with fd := -1 }, compress_array := 1, trace := s.trace ++ (cycleEvents inp i p.fd ++ [Event.close p.fd]) }
      else { s with trace := s.trace ++ cycleEvents inp i p.fd }) := by
  rw [serviceCycle_cases inp i s p hp, hno]
  rfl

theorem serviceCycle_fault (inp : RoundInput) (i : Nat) (s : State) (p : pollfd)
    (hp : s.fds[i]? = some p) (hov : overreads inp i = true) :
    serviceCycle inp i s = .error (Fault.bufferOutOfBounds MAX_BUFF) := by
  rw [serviceCycle_cases inp i s p hp, hov]
  rfl

theorem cycleEvents_obs (inp : RoundInput) (i : Nat) (fd : Int) :
    accepted (cycleEvents inp i fd) = [] ∧ closed (cycleEvents inp i fd) = [] ∧
    ∀ h ∈ serviced (cycleEvents inp i fd), h = fd := by
  unfold cycleEvents
  cases inp.recv i with
  | error errno => simp [accepted, closed, serviced]
  | data bytes =>
    by_cases h0 : (min bytes.length MAX_BUFF == 0) = true
    · simp [h0, accepted, closed, serviced]
    · simp [h0, accepted, closed, serviced]

theorem serviceCycle_spec (inp : RoundInput) (i : Nat) (s : State) (p : pollfd)
    (hp : s.fds[i]? = some p) (hno : overreads inp i = false) :
    ∃ evs, accepted evs = [] ∧ (∀ h ∈ serviced evs, h = p.fd) ∧
      closed evs = (if closesConn inp i then [p.fd] else []) ∧
      serviceCycle inp i s = .ok (if closesConn inp i
        then { s with fds := s.fds.set i { p with fd := -1 }, compress_array := 1, trace := s.trace ++ evs }
        else { s with trace := s.trace ++ evs }) := by
  obtain ⟨c1, c2, c3⟩ := cycleEvents_obs inp i p.fd
  by_cases hc : closesConn inp i = true
  · refine ⟨cycleEvents inp i p.fd ++ [Event.close p.fd], ?_, ?_, ?_, ?_⟩
    · rw [accepted_append, c1]; simp [accepted]
    · intro h hh
      rw [serviced_append] at hh
      simp only [List.mem_append] at hh
      rcases hh with hh | hh
      · exact c3 h hh
      · simp [serviced] at hh
    · rw [closed_append, c2]; simp [closed, hc]
    · rw [serviceCycle_eq inp i s p hp hno, if_pos hc, if_pos hc]
  · refine ⟨cycleEvents inp i p.fd, c1, c3, ?_, ?_⟩
    · rw [c2]; simp [hc]
    · rw [serviceCycle_eq inp i s p hp hno, if_neg hc, if_neg hc]

theorem connSlot_fault (L : Int) (inp : RoundInput) (rv : Nat → Int) (i : Nat) (st : State)
    (p : pollfd) (hp : st.fds[i]? = some p) (hL : p.fd ≠ L) (hrv : p.revents = rv i)
    (hov : faulting inp rv i = true) :
    dispatchSlot L inp i st = .error (Fault.bufferOutOfBounds MAX_BUFF) := by
  simp only [faulting, Bool.and_eq_true, beq_iff_eq] at hov
  have hfd : (p.fd == L) = false := by simpa using hL
  have hne : (POLLIN == (0 : Int)) = false := by decide
  unfold dispatchSlot
  simp only [rd, hp, hrv, hov.1, hne, bne_self_eq_false, hfd, Bool.false_eq_true, if_false,
    serviceCycle_fault inp i st p hp hov.2]

theorem connSlot_spec (L : Int) (inp : RoundInput) (rv : Nat → Int) (i : Nat) (st : State)
    (p : pollfd) (hp : st.fds[i]? = some p) (hL : p.fd ≠ L) (hrv : p.revents = rv i)
    (hno : faulting inp rv i = false) :
    ∃ evs, accepted evs = [] ∧ (∀ h ∈ serviced evs, h = p.fd) ∧
      closed evs = (if closing inp rv i then [p.fd] else []) ∧
      dispatchSlot L inp i st = .ok (if bad rv i then ({ st with end_server := 1 }, true)
        else (if closing inp rv i
          then { st with fds := st.fds.set i { p with fd := -1 }, compress_array := 1, trace := st.trace ++ evs }
          else { st with trace := st.trace ++ evs }, false)) := by
  unfold dispatchSlot
  simp only [rd, hp, hrv]
  by_cases h0 : rv i = 0
  · refine ⟨[], rfl, by simp [serviced], ?_, ?_⟩
    · have : POLLIN ≠ 0 := by decide
      simp [closing, h0, closed, this.symm]
    · have : (0 : Int) ≠ POLLIN := by decide
      simp [h0, bad, closing, this]
  · by_cases h1 : rv i = POLLIN
    · have hno1 : overreads inp i = false := by simpa [faulting, h1] using hno
      obtain ⟨evs, e1, e2, e3, e4⟩ := serviceCycle_spec inp i st p hp hno1
      refine ⟨evs, e1, e2, ?_, ?_⟩
      · simp [closing, h1, e3]
      · have hb : bad rv i = false := by simp [bad, h1]
        rw [hrv, h1] at e4
        have hfd : (p.fd == L) = false := by simpa using hL
        have hne : (POLLIN == (0 : Int)) = false := by decide
        simp only [h1, hne, bne_self_eq_false, hfd, hb, e4, closing, beq_self_eq_true,
          Bool.true_and, Bool.false_eq_true, if_false]
    · refine ⟨[], rfl, by simp [serviced], ?_, ?_⟩
      · simp [closing, h1, closed]
      · have hb : bad rv i = true := by simp [bad, h0, h1]
        simp [h0, h1, hb]

/-! ## The dispatch loop over connection slots -/

theorem connLoop_spec (L : Int) (inp : RoundInput) (rv : Nat → Int) :
    ∀ (n i : Nat) (st : State), i + n ≤ st.fds.length →
    (∀ k p, i ≤ k → k < i + n → st.fds[k]? = some p → p.fd ≠ L ∧ p.revents = rv k) →
    (∃ st1 b evs, dispatchLoop L inp n i st = .ok st1 ∧ LoopPost inp rv n i st st1 b evs) ∨
    (dispatchLoop L inp n i st = .error (Fault.bufferOutOfBounds MAX_BUFF) ∧
      ∃ k, i ≤ k ∧ k < i + n ∧ faulting inp rv k = true) := by
  intro n
  induction n with
  | zero =>
    intro i st _ _
    refine Or.inl ⟨st, i, [], rfl, ?_⟩
    refine ⟨le_refl _, le_refl _, fun k h1 h2 => by omega, fun h => by omega, by simp, rfl, ?_,
      by simp, by simp, rfl, by simp [closed], by simp [serviced]⟩
    intro k
    have : ¬ (i ≤ k ∧ k < i ∧ closing inp rv k = true) := by omega
    simp only [this, if_false]
    cases st.fds[k]? <;> rfl
  | succ n ih =>
    intro i st hlen hconn
    have hil : i < st.fds.length := by omega
    have hp : st.fds[i]? = some st.fds[i] := List.getElem?_eq_getElem hil
    obtain ⟨hL, hrv⟩ := hconn i _ (le_refl _) (by omega) hp
    by_cases hf : faulting inp rv i = true
    · right
      unfold dispatchLoop
      rw [connSlot_fault L inp rv i st _ hp hL hrv hf]
      exact ⟨rfl, i, le_refl _, by omega, hf⟩
    have hf1 : faulting inp rv i = false := by simpa using hf
    obtain ⟨evs0, a0, sv0, cl0, hslot⟩ := connSlot_spec L inp rv i st _ hp hL hrv hf1
    unfold dispatchLoop
    rw [hslot]
    by_cases hb : bad rv i = true
    · simp only [hb, if_true]
      refine Or.inl ⟨_, i, [], rfl, ?_⟩
      refine ⟨le_refl _, by omega, fun k h1 h2 => by omega, fun _ => hb, by simp, rfl, ?_,
        by simp, by simp, rfl, by simp [closed], by simp [serviced]⟩
      intro k
      have : ¬ (i ≤ k ∧ k < i ∧ closing inp rv k = true) := by omega
      simp only [this, if_false]
      cases st.fds[k]? <;> rfl
    · have hb1 : bad rv i = false := by simpa using hb
      simp only [hb1, Bool.false_eq_true, if_false]
      generalize hst2 : (if closing inp rv i = true
        then { st with fds := st.fds.set i { st.fds[i] with fd := -1 }, compress_array := 1, trace := st.trace ++ evs0 }
        else { st with trace := st.trace ++ evs0 }) = st2
      have f1 : st2.fds.length = st.fds.length := by
        subst hst2; split <;> simp
      have f2 : ∀ k, k ≠ i → st2.fds[k]? = st.fds[k]? := by
        intro k hk
        subst hst2
        split
        · simp [List.getElem?_set_ne (Ne.symm hk)]
        · rfl
      have f2i : st2.fds[i]? = some (if closing inp rv i = true
          then { st.fds[i] with fd := -1 } else st.fds[i]) := by
        subst hst2
        split
        · simp [List.getElem?_set_self hil]
        · simp
      have f3 : st2.nfds = st.nfds ∧ st2.end_server = st.end_server ∧
          st2.compress_array = (if closing inp rv i = true then 1 else st.compress_array) ∧
          st2.trace = st.trace ++ evs0 := by
        subst hst2; split <;> simp
      obtain ⟨g1, g2, g3, g4⟩ := f3
      rcases ih (i + 1) st2 (by omega) (by
        intro k q h1 h2 hq
        rw [f2 k (by omega)] at hq
        exact hconn k q (by omega) (by omega) hq) with
        ⟨st1, b, evs, hrun, post⟩ | ⟨herr, k, k1, k2, k3⟩
      swap
      · exact Or.inr ⟨herr, k, by omega, by omega, k3⟩
      refine Or.inl ⟨st1, b, evs0 ++ evs, hrun, ?_⟩
      have hlo := post.lo
      have hhi := post.hi
      have hrange : List.range' i (b - i) = i :: List.range' (i + 1) (b - (i + 1)) := by
        have : b - i = (b - (i + 1)) + 1 := by omega
        rw [this, List.range'_succ]
      have hhandles : ∀ k, k ≠ i → (handles st2.fds)[k]? = (handles st.fds)[k]? := by
        intro k hk
        rw [handles_getElem?, handles_getElem?, f2 k hk]
      have hhi0 : (handles st.fds)[i]? = some (st.fds[i]).fd := by
        rw [handles_getElem?, hp]; rfl
      refine ⟨by omega, by omega, ?_, ?_, ?_, ?_, ?_, ?_, ?_, ?_, ?_, ?_⟩
      · intro k h1 h2
        by_cases hk : k = i
        · subst hk; exact hb1
        · exact post.good k (by omega) h2
      · intro h
        exact post.stop (by omega)
      · rw [post.endFlag, g2]
        by_cases hlt : b < i + 1 + n
        · rw [if_pos hlt, if_pos (by omega)]
        · rw [if_neg hlt, if_neg (by omega)]
      · rw [post.count, g1]
      · intro k
        rw [post.slots k]
        by_cases hk : k = i
        · subst hk
          rw [f2i, hp]
          have h1 : ¬ (k + 1 ≤ k ∧ k < b ∧ closing inp rv k = true) := by omega
          simp only [Option.map_some', h1, if_false]
          by_cases hc : closing inp rv k = true
          · rw [if_pos hc, if_pos ⟨le_refl _, by omega, hc⟩]
          · rw [if_neg hc, if_neg (fun h => hc h.2.2)]
        · rw [f2 k hk]
          have hiff : (i + 1 ≤ k ∧ k < b ∧ closing inp rv k = true) ↔
              (i ≤ k ∧ k < b ∧ closing inp rv k = true) := by
            constructor
            · rintro ⟨a, b, c⟩; exact ⟨by omega, b, c⟩
            · rintro ⟨a, b, c⟩; exact ⟨by omega, b, c⟩
          simp only [hiff]
      · rw [post.flag, g3, hrange, List.any_cons]
        by_cases hc : closing inp rv i = true
        · simp [hc]
        · have hc1 : closing inp rv i = false := by simpa using hc
          simp only [hc1, Bool.false_or, Bool.false_eq_true, if_false]
      · rw [post.tr, g4, List.append_assoc]
      · rw [accepted_append, a0, post.acc]; rfl
      · rw [closed_append, cl0, post.cl, hrange, List.filterMap_cons]
        have hcongr : List.filterMap
              (fun k => if closing inp rv k = true then (handles st2.fds)[k]? else none)
              (List.range' (i + 1) (b - (i + 1))) =
            List.filterMap
              (fun k => if closing inp rv k = true then (handles st.fds)[k]? else none)
              (List.range' (i + 1) (b - (i + 1))) := by
          apply List.filterMap_congr
          intro k hk
          have : i + 1 ≤ k := (List.mem_range'_1.mp hk).1
          rw [hhandles k (by omega)]
        rw [hcongr]
        by_cases hc : closing inp rv i = true
        · simp [hc, hhi0]
        · simp [hc]
      · intro h hh
        rw [serviced_append, List.mem_append] at hh
        rcases hh with hh | hh
        · refine ⟨i, le_refl _, by omega, ?_⟩
          rw [hhi0, sv0 h hh]
        · obtain ⟨k, k1, k2, k3⟩ := post.sv h hh
          exact ⟨k, by omega, k2, by rw [← hhandles k (by omega)]; exact k3⟩

/-! ## Slot 0 and the active count at round boundaries -/

theorem pollWrite_getElem? : ∀ (revs : List Int) (n : Nat) (fds : List pollfd) (k : Nat),
    (pollWrite revs n fds)[k]? =
      (fds[k]?).map (fun p => if k < n then { p with revents := revs.getD k 0 } else p) := by
  intro revs n
  induction n generalizing revs with
  | zero =>
    intro fds k
    cases fds <;> simp [pollWrite]
  | succ n ih =>
    intro fds k
    cases fds with
    | nil => simp [pollWrite]
    | cons p t =>
      cases k with
      | zero => cases revs <;> simp [pollWrite]
      | succ k =>
        simp only [pollWrite, List.getElem?_cons_succ, ih]
        cases revs <;> simp

theorem pollWrite_length (revs : List Int) (n : Nat) (fds : List pollfd) :
    (pollWrite revs n fds).length = fds.length := by
  induction n generalizing revs fds with
  | zero => cases fds <;> simp [pollWrite]
  | succ n ih =>
    cases fds with
    | nil => simp [pollWrite]
    | cons p t => simp [pollWrite, ih]

theorem pollWrite_handles (revs : List Int) (n : Nat) (fds : List pollfd) :
    handles (pollWrite revs n fds) = handles fds := by
  apply List.ext_getElem?
  intro k
  rw [handles_getElem?, handles_getElem?, pollWrite_getElem?]
  cases fds[k]? with
  | none => rfl
  | some p =>
    simp only [Option.map_some']
    split <;> rfl

theorem dispatchSlot_slotZero (L : Int) (inp : RoundInput) (i : Nat) (st st1 : State) (brk : Bool)
    (h : dispatchSlot L inp i st = .ok (st1, brk)) (hJ : SlotZero L st) : SlotZero L st1 := by
  unfold dispatchSlot at h
  cases hp : rd st.fds i with
  | error e => simp [hp] at h
  | ok p =>
    have hp1 := rd_eq_ok.mp hp
    simp only [hp] at h
    by_cases h0 : (p.revents == 0) = true
    · simp only [h0, if_true, Except.ok.injEq, Prod.mk.injEq] at h
      rw [← h.1]; exact hJ
    · simp only [h0, Bool.false_eq_true, if_false] at h
      by_cases h1 : (p.revents != POLLIN) = true
      · simp only [h1, if_true, Except.ok.injEq, Prod.mk.injEq] at h
        rw [← h.1]; exact ⟨hJ.len, hJ.pos, hJ.cap, hJ.listen⟩
      · simp only [h1, Bool.false_eq_true, if_false] at h
        by_cases h2 : (p.fd == L) = true
        · simp only [h2, if_true] at h
          cases ha : acceptLoop (inp.accepts i) st with
          | error e => simp [ha] at h
          | ok s2 =>
            simp only [ha, Except.ok.injEq, Prod.mk.injEq] at h
            obtain ⟨a1, a2, a3, _, _, _, a7, _⟩ := acceptLoop_spec _ _ _ ha
            rw [← h.1]
            refine ⟨by rw [a2, hJ.len], by have := hJ.pos; omega, ?_, ?_⟩
            · by_cases hnil : acceptedOf (inp.accepts i) = []
              · rw [a1, hnil]; simpa using hJ.cap
              · have := a3 hnil
                rw [hJ.len] at this
                exact this
            · rw [handles_getElem?, a7 0 (Or.inl hJ.pos), ← handles_getElem?]
              exact hJ.listen
        · simp only [h2, Bool.false_eq_true, if_false] at h
          have hno : overreads inp i = false := by
            by_contra hc
            rw [serviceCycle_fault inp i st p hp1 (by simpa using hc)] at h
            simp at h
          rw [serviceCycle_eq inp i st p hp1 hno] at h
          simp only [Except.ok.injEq, Prod.mk.injEq] at h
          have hi0 : i ≠ 0 := by
            rintro rfl
            have := hJ.listen
            rw [handles_getElem?, hp1] at this
            simp at this
            simp [this] at h2
          rw [← h.1]
          split
          · refine ⟨by simpa using hJ.len, hJ.pos, hJ.cap, ?_⟩
            rw [handles_getElem?]
            simp only []
            rw [List.getElem?_set_ne hi0, ← handles_getElem?]
            exact hJ.listen
          · exact ⟨hJ.len, hJ.pos, hJ.cap, hJ.listen⟩

theorem dispatchLoop_slotZero (L : Int) (inp : RoundInput) : ∀ (n i : Nat) (st st1 : State),
    dispatchLoop L inp n i st = .ok st1 → SlotZero L st → SlotZero L st1 := by
  intro n
  induction n with
  | zero =>
    intro i st st1 h hJ
    simp only [dispatchLoop, Except.ok.injEq] at h
    rw [← h]; exact hJ
  | succ n ih =>
    intro i st st1 h hJ
    unfold dispatchLoop at h
    cases hs : dispatchSlot L inp i st with
    | error e => simp [hs] at h
    | ok r =>
      obtain ⟨s2, brk⟩ := r
      have hJ2 := dispatchSlot_slotZero L inp i st s2 brk hs hJ
      cases brk with
      | true =>
        simp only [hs, Except.ok.injEq] at h
        rw [← h]; exact hJ2
      | false =>
        simp only [hs] at h
        exact ih (i + 1) s2 st1 h hJ2

theorem compaction_slotZero (L : Int) (hL : 0 ≤ L) (s s1 : State) (h : compaction s = .ok s1)
    (hJ : SlotZero L s) : SlotZero L s1 := by
  unfold compaction at h
  by_cases hc : (s.compress_array != 0) = true
  · simp only [hc, if_true] at h
    cases hr : compress s.fds s.nfds with
    | error e => simp [hr] at h
    | ok r =>
      simp only [hr, Except.ok.injEq] at h
      obtain ⟨c1, _, c3, c4⟩ := compressLoop_spec _ _ _ _ _ hr (Nat.zero_le _)
      simp only [List.take_zero, List.nil_append, List.drop_zero] at c4
      have hpos := hJ.pos
      have hcap := hJ.cap
      have hlen := hJ.len
      have h0 : (handles s.fds).take s.nfds = L :: ((handles s.fds).take s.nfds).tail := by
        have hl : ((handles s.fds).take s.nfds)[0]? = some L := by
          rw [List.getElem?_take, if_pos (by omega)]; exact hJ.listen
        cases hh : (handles s.fds).take s.nfds with
        | nil => rw [hh] at hl; simp at hl
        | cons a t =>
          rw [hh] at hl
          simp at hl
          simp [hl]
      have hne : (L != -1) = true := by
        simp only [bne_iff_ne, ne_eq]
        omega
      rw [h0] at c4
      simp only [List.filter_cons, hne, if_true] at c4
      have hr2 : 1 ≤ r.2 := by
        rcases Nat.eq_zero_or_pos r.2 with hz | hz
        · rw [hz] at c4; simp at c4
        · exact hz
      rw [← h]
      refine ⟨by simp only []; omega, hr2, by simp only []; omega, ?_⟩
      have := congrArg (fun l => l[0]?) c4
      simp only [List.getElem?_take, List.getElem?_cons_zero] at this
      rw [if_pos (by omega)] at this
      exact this
  · simp only [hc, Bool.false_eq_true, if_false, Except.ok.injEq] at h
    rw [← h]; exact hJ

theorem initState_slotZero (L : Int) : SlotZero L (initState L) := by
  have h0 : 0 < (List.replicate MAX_FDS (⟨0, 0, 0⟩ : pollfd)).length := by
    rw [List.length_replicate]; decide
  refine ⟨?_, le_refl _, (by decide : 1 ≤ MAX_FDS), ?_⟩
  · simp only [initState, List.length_set, List.length_replicate]
  · rw [handles_getElem?]
    simp only [initState]
    rw [List.getElem?_set_self h0]
    rfl

theorem iteration_slotZero (L : Int) (hL : 0 ≤ L) (inp : RoundInput) (s s1 : State) (c : Bool)
    (h : iteration L inp s = .ok (s1, c)) (hJ : SlotZero L s) : SlotZero L s1 := by
  unfold iteration at h
  by_cases h1 : inp.rc < 0
  · simp only [h1, if_true, Except.ok.injEq, Prod.mk.injEq] at h
    rw [← h.1]; exact hJ
  · simp only [h1, if_false] at h
    by_cases h2 : (inp.rc == 0) = true
    · simp only [h2, if_true, Except.ok.injEq, Prod.mk.injEq] at h
      rw [← h.1]; exact hJ
    · simp only [h2, Bool.false_eq_true, if_false] at h
      cases hd : dispatch L inp { s with fds := pollWrite inp.revents s.nfds s.fds } with
      | error e => simp [hd] at h
      | ok s2 =>
        simp only [hd] at h
        cases hc : compaction s2 with
        | error e => simp [hc] at h
        | ok s3 =>
          simp only [hc, Except.ok.injEq, Prod.mk.injEq] at h
          rw [← h.1]
          apply compaction_slotZero L hL s2 s3 hc
          apply dispatchLoop_slotZero L inp _ _ _ _ hd
          exact ⟨by simpa [pollWrite_length] using hJ.len, hJ.pos, hJ.cap, by
            simp only [pollWrite_handles]; exact hJ.listen⟩

/-- Slot 0 at round boundaries, for the rounds with defined behaviour: in the state in
which the loop is entered, and in the state after the compaction of each round that
ends without a fault (whether or not the loop goes on after it), slot 0 holds the
listening descriptor and the active count is at least 1 (and at most `MAX_FDS`). -/
theorem reachable_slot_zero (listen_sd : Int) (s : State) (c : Bool)
    (h : Reachable listen_sd s c) :
    (handles s.fds)[0]? = some listen_sd ∧ 1 ≤ s.nfds ∧ s.nfds ≤ MAX_FDS ∧
      s.fds.length = MAX_FDS := by
  have key : 0 ≤ listen_sd ∧ SlotZero listen_sd s := by
    induction h with
    | init h0 => exact ⟨h0, initState_slotZero listen_sd⟩
    | round s s1 inp c _ hit ih => exact ⟨ih.1, iteration_slotZero listen_sd ih.1 inp s s1 c hit ih.2⟩
  exact ⟨key.2.listen, key.2.pos, key.2.cap, key.2.len⟩

/-! ## Unexpected readiness flags leave the dispatch loop -/

theorem acceptLoop_revents (rs : List SysRet) (s s1 : State) (h : acceptLoop rs s = .ok s1) :
    s1.fds.map (·.revents) = s.fds.map (·.revents) := by
  obtain ⟨_, _, _, _, _, _, a7, a8⟩ := acceptLoop_spec rs s s1 h
  apply List.ext_getElem?
  intro k
  simp only [List.getElem?_map]
  by_cases hk : k < s.nfds ∨ s1.nfds ≤ k
  · rw [a7 k hk]
  · obtain ⟨p, hp, hp1⟩ := a8 k (by omega) (by omega)
    rw [hp, hp1]
    rfl

theorem dispatchSlot_revents (L : Int) (inp : RoundInput) (i : Nat) (st st1 : State) (brk : Bool)
    (h : dispatchSlot L inp i st = .ok (st1, brk)) :
    st1.fds.map (·.revents) = st.fds.map (·.revents) ∧ (brk = true → st1.end_server = 1) := by
  unfold dispatchSlot at h
  cases hp : rd st.fds i with
  | error e => simp [hp] at h
  | ok p =>
    have hp1 := rd_eq_ok.mp hp
    simp only [hp] at h
    by_cases h0 : (p.revents == 0) = true
    · simp only [h0, if_true, Except.ok.injEq, Prod.mk.injEq] at h
      rw [← h.1, ← h.2]; simp
    · simp only [h0, Bool.false_eq_true, if_false] at h
      by_cases h1 : (p.revents != POLLIN) = true
      · simp only [h1, if_true, Except.ok.injEq, Prod.mk.injEq] at h
        rw [← h.1]; simp
      · simp only [h1, Bool.false_eq_true, if_false] at h
        by_cases h2 : (p.fd == L) = true
        · simp only [h2, if_true] at h
          cases ha : acceptLoop (inp.accepts i) st with
          | error e => simp [ha] at h
          | ok s2 =>
            simp only [ha, Except.ok.injEq, Prod.mk.injEq] at h
            rw [← h.1, ← h.2]
            exact ⟨acceptLoop_revents _ _ _ ha, by simp⟩
        · simp only [h2, Bool.false_eq_true, if_false] at h
          have hno : overreads inp i = false := by
            by_contra hc
            rw [serviceCycle_fault inp i st p hp1 (by simpa using hc)] at h
            simp at h
          rw [serviceCycle_eq inp i st p hp1 hno] at h
          simp only [Except.ok.injEq, Prod.mk.injEq] at h
          rw [← h.1, ← h.2]
          refine ⟨?_, by simp⟩
          split
          · apply List.ext_getElem?
            intro k
            have hil : i < st.fds.length := (List.getElem?_eq_some.mp hp1).1
            simp only [List.getElem?_map]
            by_cases hk : i = k
            · subst hk
              rw [List.getElem?_set_self hil, hp1]
              rfl
            · rw [List.getElem?_set_ne hk]
          · rfl

theorem dispatchLoop_break (L : Int) (inp : RoundInput) : ∀ (i m j : Nat) (st : State) (r : Int),
    (st.fds.map (·.revents))[j + i]? = some r → r ≠ 0 → r ≠ POLLIN →
    dispatchLoop L inp (i + (m + 1)) j st =
      (dispatchLoop L inp i j st).map (fun t => { t with end_server := 1 }) := by
  intro i
  induction i with
  | zero =>
    intro m j st r hr h0 h1
    simp only [Nat.add_zero, List.getElem?_map] at hr
    cases hp : st.fds[j]? with
    | none => simp [hp] at hr
    | some p =>
      simp only [hp, Option.map_some', Option.some.injEq] at hr
      have e0 : (p.revents == 0) = false := by simpa [hr] using h0
      have e1 : (p.revents != POLLIN) = true := by simpa [hr] using h1
      simp only [Nat.zero_add]
      unfold dispatchLoop
      simp [dispatchSlot, rd, hp, e0, e1, Except.map]
  | succ i ih =>
    intro m j st r hr h0 h1
    have e : i + 1 + (m + 1) = (i + (m + 1)) + 1 := by omega
    rw [e]
    conv => lhs; unfold dispatchLoop
    conv => rhs; unfold dispatchLoop
    cases hs : dispatchSlot L inp j st with
    | error e => simp [Except.map]
    | ok q =>
      obtain ⟨s1, brk⟩ := q
      obtain ⟨hrev, hbrk⟩ := dispatchSlot_revents L inp j st s1 brk hs
      cases brk with
      | true =>
        have := hbrk rfl
        simp only [Except.map]
        congr 1
        cases s1
        simp only [State.mk.injEq] at *
        simp_all
      | false =>
        simp only []
        apply ih m (j + 1) s1 r _ h0 h1
        rw [hrev]
        have : j + 1 + i = j + (i + 1) := by omega
        rw [this]
        exact hr

/-- When a slot `i` below the snapshot count holds readiness flags that are neither 0 nor
`POLLIN`, the dispatch of the round is exactly the dispatch of the slots below `i`
followed by `end_server = 1`. -/
theorem dispatch_break_at (listen_sd : Int) (inp : RoundInput) (s : State)
    (i : Nat) (r : Int) (hi : i < s.nfds) (hr : (s.fds.map (·.revents))[i]? = some r)
    (h0 : r ≠ 0) (h1 : r ≠ POLLIN) :
    dispatch listen_sd inp s =
      (dispatchLoop listen_sd inp i 0 s).map (fun t => { t with end_server := 1 }) ∧
    ∀ s1, dispatch listen_sd inp s = .ok s1 → s1.end_server = 1 := by
  have e : s.nfds = i + ((s.nfds - i - 1) + 1) := by omega
  have key : dispatch listen_sd inp s =
      (dispatchLoop listen_sd inp i 0 s).map (fun t => { t with end_server := 1 }) := by
    unfold dispatch
    rw [e]
    exact dispatchLoop_break listen_sd inp i _ 0 s r (by simpa using hr) h0 h1
  refine ⟨key, ?_⟩
  intro s1 hs1
  rw [key] at hs1
  cases hd : dispatchLoop listen_sd inp i 0 s with
  | error e => simp [hd, Except.map] at hs1
  | ok t =>
    simp only [hd, Except.map, Except.ok.injEq] at hs1
    rw [← hs1]

theorem compaction_end_server (s s2 : State) (h : compaction s = .ok s2) :
    s2.end_server = s.end_server := by
  unfold compaction at h
  by_cases hc : (s.compress_array != 0) = true
  · simp only [hc, if_true] at h
    cases hr : compress s.fds s.nfds with
    | error e => simp [hr] at h
    | ok r =>
      simp only [hr, Except.ok.injEq] at h
      rw [← h]
  · simp only [hc, Bool.false_eq_true, if_false, Except.ok.injEq] at h
    rw [h]

theorem pollWrite_flags (inp : RoundInput) (s : State) (i : Nat) (hi : i < s.nfds)
    (hlen : s.nfds ≤ s.fds.length) :
    ((pollWrite inp.revents s.nfds s.fds).map (·.revents))[i]? = some (flagsOf inp i) := by
  have hil : i < s.fds.length := by omega
  rw [List.getElem?_map, pollWrite_getElem?, List.getElem?_eq_getElem hil]
  simp only [Option.map_some', hi, if_true]
  rfl

/-- C6 (as amended): take a round in which `poll` reports readiness and a slot `i` below
the snapshot count has readiness flags that are neither 0 nor `POLLIN`. The dispatch of
the round is exactly the dispatch of the slots below `i` followed by `end_server = 1`:
the loop over the slots is left at slot `i` at the latest and no slot after `i` is
dispatched. The round is that dispatch followed by the compaction, and it ends the
loop: when the round ends without a fault, `end_server` is 1 in its final state and
the loop is left after it, whatever the answers for later rounds would be. -/
theorem round_aborts_at_unexpected (listen_sd : Int) (inp : RoundInput)
    (rest : List RoundInput) (s : State) (i : Nat) (hrc : 0 < inp.rc) (hi : i < s.nfds)
    (hlen : s.nfds ≤ s.fds.length) (h0 : flagsOf inp i ≠ 0) (h1 : flagsOf inp i ≠ POLLIN) :
    dispatch listen_sd inp { s with fds := pollWrite inp.revents s.nfds s.fds } =
      (dispatchLoop listen_sd inp i 0 { s with fds := pollWrite inp.revents s.nfds s.fds }).map
        (fun t => { t with end_server := 1 }) ∧
    iteration listen_sd inp s =
      (match dispatchLoop listen_sd inp i 0
          { s with fds := pollWrite inp.revents s.nfds s.fds } with
        | .error e => .error e
        | .ok t =>
          match compaction { t with end_server := 1 } with
          | .error e => .error e
          | .ok s2 => .ok (s2, false)) ∧
    ∀ s2 c, iteration listen_sd inp s = .ok (s2, c) →
      s2.end_server = 1 ∧ c = false ∧ serverLoop listen_sd (inp :: rest) s = .ok (s2, true) := by
  have key := (dispatch_break_at listen_sd inp
    { s with fds := pollWrite inp.revents s.nfds s.fds } i (flagsOf inp i) hi
    (pollWrite_flags inp s i hi hlen) h0 h1).1
  have e1 : ¬ inp.rc < 0 := by omega
  have e2 : (inp.rc == 0) = false := by
    simp only [beq_eq_false_iff_ne, ne_eq]
    omega
  have hit : iteration listen_sd inp s =
      (match dispatchLoop listen_sd inp i 0
          { s with fds := pollWrite inp.revents s.nfds s.fds } with
        | .error e => .error e
        | .ok t =>
          match compaction { t with end_server := 1 } with
          | .error e => .error e
          | .ok s2 => .ok (s2, false)) := by
    unfold iteration
    simp only [e1, e2, if_false, Bool.false_eq_true]
    rw [key]
    cases hd : dispatchLoop listen_sd inp i 0
        { s with fds := pollWrite inp.revents s.nfds s.fds } with
    | error e => rfl
    | ok t =>
      simp only [Except.map]
      cases hc : compaction { t with end_server := 1 } with
      | error e => rfl
      | ok s2 =>
        have := compaction_end_server _ _ hc
        simp only [] at this
        simp only [this]
        rfl
  refine ⟨key, hit, ?_⟩
  intro s2 c hok
  have hok1 := hok
  rw [hit] at hok1
  cases hd : dispatchLoop listen_sd inp i 0
      { s with fds := pollWrite inp.revents s.nfds s.fds } with
  | error e => simp [hd] at hok1
  | ok t =>
    simp only [hd] at hok1
    cases hc : compaction { t with end_server := 1 } with
    | error e => simp [hc] at hok1
    | ok s3 =>
      simp only [hc, Except.ok.injEq, Prod.mk.injEq] at hok1
      have hes := compaction_end_server _ _ hc
      simp only [] at hes
      obtain ⟨hs, hcf⟩ := hok1
      subst hs
      subst hcf
      refine ⟨hes, rfl, ?_⟩
      unfold serverLoop
      rw [hok]

set_option maxRecDepth 100000 in
/-- C6 (counterexample): `poll` reports `POLLERR` on slot 1 and `POLLIN` on slot 2 of
three active slots. The round makes no call at all on the connection of slot 2 (nor
any other call), sets `end_server` and ends the loop: slot 2 is not dispatched. -/
theorem unexpected_flags_skip_later_slots :
    (iteration 3 errorRound threeSlots).map (fun r => (r.1.trace, r.1.end_server, r.2))
      = .ok ([], 1, false) := by
  decide

/-! ## More accepted connections than free slots -/

theorem acceptedOf_of_nonneg : ∀ rs : List SysRet, (∀ r ∈ rs, 0 ≤ r.ret) →
    acceptedOf rs = rs.map (·.ret) := by
  intro rs
  induction rs with
  | nil => intro _; rfl
  | cons r rest ih =>
    intro h
    have hr : ¬ r.ret < 0 := by
      have := h r (List.mem_cons_self _ _)
      omega
    simp only [acceptedOf, hr, if_false, List.map_cons]
    rw [ih (fun x hx => h x (List.mem_cons_of_mem _ hx))]

theorem acceptedOf_burst (n : Nat) :
    acceptedOf (burst n) = (List.range n).map (fun k => Int.ofNat k + 4) := by
  rw [acceptedOf_of_nonneg]
  · simp [burst]
  · intro r hr
    simp only [burst, List.mem_map, List.mem_range] at hr
    obtain ⟨k, _, rfl⟩ := hr
    simp only [Int.ofNat_eq_coe]
    omega

theorem iteration_overflow_of_burst (s0 : State) (n : Nat) (h1 : s0.nfds = 1)
    (hlen : s0.fds.length = MAX_FDS) (h0 : s0.fds[0]? = some ⟨3, POLLIN, 0⟩)
    (hn : MAX_FDS ≤ n) :
    iteration 3 (burstRound n) s0 = .error (Fault.outOfBounds MAX_FDS) := by
  have hpw : (pollWrite [POLLIN] 1 s0.fds)[0]? = some ⟨3, POLLIN, POLLIN⟩ := by
    rw [pollWrite_getElem?, h0]
    rfl
  have hov := acceptLoop_overflow (burst n)
    { s0 with fds := pollWrite [POLLIN] 1 s0.fds }
    (by simp only [pollWrite_length, hlen, h1]; decide)
    (by simp only [pollWrite_length, hlen, acceptedOf_burst, List.length_map, List.length_range,
          h1]
        omega)
  simp only [pollWrite_length, hlen, h1] at hov
  have hrc1 : ¬ ((burstRound n).rc < 0) := by simp [burstRound]
  have hrc2 : ((burstRound n).rc == 0) = false := by simp [burstRound]
  unfold iteration dispatch
  simp only [hrc1, hrc2, if_false, Bool.false_eq_true, h1]
  unfold dispatchLoop dispatchSlot
  simp only [rd, burstRound, hpw]
  have e1 : ((POLLIN : Int) == 0) = false := by decide
  simp only [e1, bne_self_eq_false, beq_self_eq_true, Bool.false_eq_true, if_false, if_true]
  rw [hov]

theorem iteration_burst_overflow (n : Nat) (hn : MAX_FDS ≤ n) :
    iteration 3 (burstRound n) (initState 3) = .error (Fault.outOfBounds MAX_FDS) := by
  apply iteration_overflow_of_burst _ n rfl (initState_slotZero 3).len _ hn
  simp only [initState]
  rw [List.getElem?_set_self (by rw [List.length_replicate]; decide)]

/-- C3 (the code at the failing input): in the first round, with only the listening
descriptor in the array (`nfds = 1`), 200 connections are pending. The accept-drain
loop fills the slots 1 to 199 and then writes `fds[nfds]` with `nfds = MAX_FDS`,
outside the array. -/
theorem accept_burst_overflow :
    (initState 3).nfds = 1 ∧
    iteration 3 (burstRound 200) (initState 3) = .error (Fault.outOfBounds MAX_FDS) :=
  ⟨rfl, iteration_burst_overflow 200 (by decide)⟩

/-! ## The dispatch of one round on a well-formed state -/

theorem listenSlot_spec (L : Int) (inp : RoundInput) (s1 : State) (p : pollfd)
    (hp : s1.fds[0]? = some p) (hfd : p.fd = L) (hrv : p.revents = flagsOf inp 0)
    (hcap : s1.nfds + (acceptedNow inp).length ≤ s1.fds.length) :
    ∃ s1a evsA, dispatchSlot L inp 0 s1 = .ok (if bad (flagsOf inp) 0
        then ({ s1 with end_server := 1 }, true) else (s1a, false)) ∧
      (bad (flagsOf inp) 0 = true → acceptedNow inp = []) ∧
      s1a.nfds = s1.nfds + (acceptedNow inp).length ∧
      s1a.fds.length = s1.fds.length ∧
      s1a.compress_array = s1.compress_array ∧
      s1a.end_server = (if acceptFailsNow inp then 1 else s1.end_server) ∧
      s1a.trace = s1.trace ++ evsA ∧ accepted evsA = acceptedNow inp ∧ closed evsA = [] ∧
      serviced evsA = [] ∧
      (∀ k, k < s1.nfds ∨ s1a.nfds ≤ k → s1a.fds[k]? = s1.fds[k]?) ∧
      (∀ k, k < (acceptedNow inp).length → ∃ q, s1a.fds[s1.nfds + k]? = some q ∧
        q.fd = (acceptedNow inp).getD k 0 ∧ q.events = POLLIN) := by
  unfold dispatchSlot
  simp only [rd, hp, hrv, hfd, beq_self_eq_true, if_true]
  by_cases h0 : flagsOf inp 0 = 0
  · have hne : ((0 : Int) == POLLIN) = false := by decide
    have hb : bad (flagsOf inp) 0 = false := by simp [bad, h0]
    have hacc : acceptedNow inp = [] := by simp [acceptedNow, h0, hne]
    have hf : acceptFailsNow inp = false := by simp [acceptFailsNow, h0, hne]
    refine ⟨s1, [], ?_, by simp [hb], by simp [hacc], rfl, rfl, by simp [hf], by simp,
      by simp [hacc, accepted], by simp [closed], by simp [serviced], fun k _ => rfl, ?_⟩
    · simp [h0, hb]
    · intro k hk
      rw [hacc] at hk
      simp at hk
  · by_cases h1 : flagsOf inp 0 = POLLIN
    · have hb : bad (flagsOf inp) 0 = false := by simp [bad, h1]
      have hacc : acceptedNow inp = acceptedOf (inp.accepts 0) := by simp [acceptedNow, h1]
      have hf : acceptFailsNow inp = acceptFails (inp.accepts 0) := by
        simp [acceptFailsNow, h1]
      rw [hacc] at hcap
      obtain ⟨s1a, ha⟩ := acceptLoop_total (inp.accepts 0) s1 hcap
      obtain ⟨a1, a2, a3, a4, a5, a6, a7, a8⟩ := acceptLoop_spec _ _ _ ha
      obtain ⟨o1, o2, o3⟩ := acceptEvents_obs (inp.accepts 0)
      refine ⟨s1a, acceptEvents (inp.accepts 0), ?_, by simp [hb], by rw [hacc]; exact a1, a2,
        a4, by rw [hf]; exact a5, a6, by rw [hacc]; exact o1, o2, o3, a7, ?_⟩
      · have hne : ((POLLIN : Int) == 0) = false := by decide
        simp [h1, hne, hb, ha]
      · intro k hk
        rw [hacc] at hk ⊢
        obtain ⟨q, _, hq1⟩ := a8 (s1.nfds + k) (by omega) (by omega)
        refine ⟨_, hq1, ?_, rfl⟩
        simp
    · have hb : bad (flagsOf inp) 0 = true := by simp [bad, h0, h1]
      have hacc : acceptedNow inp = [] := by simp [acceptedNow, h1]
      refine ⟨s1, [], ?_, fun _ => hacc, by simp [hacc], rfl, rfl, ?_, by simp,
        by simp [hacc, accepted], by simp [closed], by simp [serviced], fun k _ => rfl, ?_⟩
      · simp [h0, h1, hb]
      · simp [acceptFailsNow, h1]
      · intro k hk
        rw [hacc] at hk
        simp at hk

theorem length_eq_of_getElem?_map {α : Type} (l1 l2 : List α) (f : Nat → α → α)
    (h : ∀ k, l1[k]? = (l2[k]?).map (f k)) : l1.length = l2.length := by
  have h1 : l1.length ≤ l2.length := by
    by_contra hc
    have := h l2.length
    rw [List.getElem?_eq_none (le_refl _), List.getElem?_eq_getElem (by omega)] at this
    simp at this
  have h2 : l2.length ≤ l1.length := by
    by_contra hc
    have := h l1.length
    rw [List.getElem?_eq_none (le_refl _), List.getElem?_eq_getElem (by omega)] at this
    simp at this
  omega

theorem dispatch_spec (L : Int) (inp : RoundInput) (s : State) (hwf : WF L s)
    (hcap : s.nfds + (acceptedNow inp).length ≤ MAX_FDS) :
    (∃ s2 b evs, dispatch L inp { s with fds := pollWrite inp.revents s.nfds s.fds } = .ok s2 ∧
      RoundPost inp s s2 b evs) ∨
    (dispatch L inp { s with fds := pollWrite inp.revents s.nfds s.fds }
        = .error (Fault.bufferOutOfBounds MAX_BUFF) ∧
      ∃ k, 1 ≤ k ∧ k < s.nfds ∧ faulting inp (flagsOf inp) k = true) := by
  generalize hs1 : ({ s with fds := pollWrite inp.revents s.nfds s.fds } : State) = s1
  have hfds : s1.fds = pollWrite inp.revents s.nfds s.fds := by rw [← hs1]
  have hn1 : s1.nfds = s.nfds := by rw [← hs1]
  have he1 : s1.end_server = s.end_server := by rw [← hs1]
  have hc1 : s1.compress_array = s.compress_array := by rw [← hs1]
  have ht1 : s1.trace = s.trace := by rw [← hs1]
  have hh : handles s1.fds = handles s.fds := by rw [hfds, pollWrite_handles]
  have hlen1 : s1.fds.length = MAX_FDS := by rw [hfds, pollWrite_length, hwf.len]
  have hpos := hwf.pos
  have hcapn := hwf.cap
  have hrev : ∀ k q, k < s.nfds → s1.fds[k]? = some q → q.revents = flagsOf inp k := by
    intro k q hk hq
    rw [hfds, pollWrite_getElem?] at hq
    cases hx : s.fds[k]? with
    | none => simp [hx] at hq
    | some x =>
      simp only [hx, Option.map_some', hk, if_true, Option.some.injEq] at hq
      rw [← hq]
      rfl
  have hl0 : 0 < s1.fds.length := by omega
  have hp0 : s1.fds[0]? = some s1.fds[0] := List.getElem?_eq_getElem hl0
  have hfd0 : (s1.fds[0]).fd = L := by
    have := hwf.listen
    rw [← hh, handles_getElem?, hp0] at this
    simpa using this
  obtain ⟨s1a, evsA, hslot, hbacc, l1, l2, l3, l4, l5, l6, l7, l8, l9, l10⟩ :=
    listenSlot_spec L inp s1 _ hp0 hfd0 (hrev 0 _ (by omega) hp0) (by omega)
  obtain ⟨m, hm⟩ : ∃ m, s.nfds = m + 1 := ⟨s.nfds - 1, by omega⟩
  unfold dispatch
  rw [hn1, hm]
  unfold dispatchLoop
  rw [hslot]
  by_cases hb : bad (flagsOf inp) 0 = true
  · simp only [hb, if_true]
    have hacc := hbacc hb
    refine Or.inl ⟨_, 0, [], rfl, ?_⟩
    refine ⟨Nat.zero_le _, fun k hk => by omega, fun _ => hb, ?_, ?_, hlen1, ?_, ?_, ?_, ?_, ?_,
      ?_, ?_⟩
    · simp only []
      rw [if_pos (Or.inl (by omega))]
    · simp only [hacc, List.length_nil, Nat.add_zero]; exact hn1
    · intro k _
      simp only []
      rw [hh]
      have : ¬ (1 ≤ k ∧ k < 0 ∧ closing inp (flagsOf inp) k = true) := by omega
      simp only [this, if_false]
      cases (handles s.fds)[k]? <;> rfl
    · intro k hk
      rw [hacc] at hk
      simp at hk
    · simp only []
      simpa using hc1
    · simp only []
      rw [ht1]; simp
    · simp [accepted, hacc]
    · simp [closed]
    · simp [serviced]
  · have hb1 : bad (flagsOf inp) 0 = false := by simpa using hb
    simp only [hb1, Bool.false_eq_true, if_false]
    have hk1 : ∀ k, k < s.nfds → s1a.fds[k]? = s1.fds[k]? := fun k hk =>
      l9 k (Or.inl (by omega))
    have hha : ∀ k, k < s.nfds → (handles s1a.fds)[k]? = (handles s.fds)[k]? := by
      intro k hk
      rw [handles_getElem?, hk1 k hk, ← handles_getElem?, hh]
    rcases connLoop_spec L inp (flagsOf inp) m 1 s1a
      (by omega) (by
        intro k q h1 h2 hq
        rw [hk1 k (by omega)] at hq
        refine ⟨?_, hrev k q (by omega) hq⟩
        have hhk : (handles s.fds)[k]? = some q.fd := by
          rw [← hh, handles_getElem?, hq]; rfl
        exact (hwf.conns k q.fd h1 (by omega) hhk).2) with
      ⟨st1, b, evs, hrun, post⟩ | ⟨herr, k, k1, k2, k3⟩
    swap
    · exact Or.inr ⟨herr, k, k1, by omega, k3⟩
    refine Or.inl ⟨st1, b, evsA ++ evs, hrun, ?_⟩
    have hlo := post.lo
    have hhi := post.hi
    refine ⟨by omega, ?_, ?_, ?_, ?_, ?_, ?_, ?_, ?_, ?_, ?_, ?_, ?_⟩
    · intro k hk
      rcases Nat.eq_zero_or_pos k with h0 | h0
      · subst h0; exact hb1
      · exact post.good k h0 hk
    · intro h
      exact post.stop (by omega)
    · rw [post.endFlag, l4, he1]
      by_cases hlt : b < 1 + m
      · rw [if_pos hlt, if_pos (Or.inl (by omega))]
      · rw [if_neg hlt]
        by_cases hf : acceptFailsNow inp = true
        · rw [if_pos hf, if_pos (Or.inr hf)]
        · rw [if_neg hf, if_neg (by
            rintro (h | h)
            · omega
            · exact hf h)]
    · rw [post.count, l1, hn1]
    · rw [length_eq_of_getElem?_map _ _ _ post.slots, l2, hlen1]
    · intro k hk
      rw [handles_getElem?, post.slots k, hk1 k hk, ← hh, handles_getElem?]
      cases s1.fds[k]? with
      | none => rfl
      | some q =>
        simp only [Option.map_some', Option.some.injEq]
        split <;> rfl
    · intro k hk
      obtain ⟨q, hq, hq1, hq2⟩ := l10 k hk
      refine ⟨q, ?_, hq1, hq2⟩
      rw [post.slots, hn1] at *
      rw [hq]
      have : ¬ (1 ≤ s.nfds + k ∧ s.nfds + k < b ∧ closing inp (flagsOf inp) (s.nfds + k) = true) := by
        omega
      simp only [Option.map_some', this, if_false]
    · rw [post.flag, l3, hc1]
    · rw [post.tr, l5, ht1, List.append_assoc]
    · rw [accepted_append, l6, post.acc, List.append_nil]
    · rw [closed_append, l7, post.cl, List.nil_append]
      apply List.filterMap_congr
      intro k hk
      have := (List.mem_range'_1.mp hk)
      rw [hha k (by omega)]
    · intro h hh1
      rw [serviced_append, l8, List.nil_append] at hh1
      obtain ⟨k, k1, k2, k3⟩ := post.sv h hh1
      exact ⟨k, k1, k2, by rw [← hha k (by omega)]; exact k3⟩

theorem threeSlots_handles :
    handles threeSlots.fds = [3, 4, 5] ++ List.replicate 197 0 := by
  simp only [handles, threeSlots, List.map_append, List.map_replicate]
  rfl

theorem threeSlots_wf : WF 3 threeSlots := by
  refine ⟨?_, (by decide : 1 ≤ 3), (by decide : 3 ≤ 200), ?_, by decide, ?_⟩
  · simp only [threeSlots, List.length_append, List.length_replicate]
    rfl
  · rw [threeSlots_handles, List.getElem?_append_left (by decide)]; rfl
  · intro k h h1 h2 hk
    rw [threeSlots_handles] at hk
    have h3 : k < 3 := h2
    rw [List.getElem?_append_left (by simpa using h3)] at hk
    interval_cases k
    · simp at hk; omega
    · simp at hk; omega

set_option maxRecDepth 100000 in
/-- The dispatch of that round, evaluated: the connections 6 and 7 are appended in slots 3
and 4, and the only `recv` and `send` are on the connection 5 of slot 2. -/
theorem burst_of_two_dispatch :
    (dispatch 3 burstOfTwo
        { threeSlots with fds := pollWrite burstOfTwo.revents threeSlots.nfds threeSlots.fds }).map
      (fun t => (t.nfds, (t.fds.take 5).map (fun p => (p.fd, p.events)), t.trace))
      = .ok (5, [(3, 1), (4, 1), (5, 1), (6, 1), (7, 1)],
          [Event.accept 6, Event.accept 7, Event.accept (-1), Event.recv 5 2,
            Event.send 5 [104, 105]]) := by
  decide

/-! ## A round with closures -/

theorem markClosed_getElem? (c : Nat → Bool) : ∀ (l : List Int) (k j : Nat),
    (markClosed c k l)[j]? = (l[j]?).map (fun h => if c (k + j) then -1 else h) := by
  intro l
  induction l with
  | nil => intro k j; simp [markClosed]
  | cons x t ih =>
    intro k j
    cases j with
    | zero => simp [markClosed]
    | succ j =>
      simp only [markClosed, List.getElem?_cons_succ, ih]
      have : k + 1 + j = k + (j + 1) := by omega
      rw [this]

theorem markClosed_length (c : Nat → Bool) : ∀ (l : List Int) (k : Nat),
    (markClosed c k l).length = l.length := by
  intro l
  induction l with
  | nil => intro k; rfl
  | cons x t ih => intro k; simp [markClosed, ih]

theorem filter_markClosed (c : Nat → Bool) : ∀ (l : List Int) (k : Nat), (∀ h ∈ l, h ≠ -1) →
    (markClosed c k l).filter (fun h => h != -1) = survivors c k l := by
  intro l
  induction l with
  | nil => intro k _; rfl
  | cons x t ih =>
    intro k hl
    have hx : x ≠ -1 := hl x (List.mem_cons_self _ _)
    have ht := ih (k + 1) (fun h hh => hl h (List.mem_cons_of_mem _ hh))
    by_cases hc : c k = true
    · simp [markClosed, survivors, hc, ht]
    · simp [markClosed, survivors, hc, ht, hx]

theorem markClosed_of_none (c : Nat → Bool) : ∀ (l : List Int) (k : Nat),
    (∀ j, j < l.length → c (k + j) = false) →
    markClosed c k l = l ∧ survivors c k l = l := by
  intro l
  induction l with
  | nil => intro k _; exact ⟨rfl, rfl⟩
  | cons x t ih =>
    intro k h
    have h0 : c k = false := by simpa using h 0 (by simp)
    obtain ⟨i1, i2⟩ := ih (k + 1) (fun j hj => by
      have := h (j + 1) (by simpa using hj)
      have e : k + 1 + j = k + (j + 1) := by omega
      rw [e]; exact this)
    simp [markClosed, survivors, h0, i1, i2]

theorem survivors_subset (c : Nat → Bool) : ∀ (l : List Int) (k : Nat) (h : Int),
    h ∈ survivors c k l → h ∈ l := by
  intro l
  induction l with
  | nil => intro k h hh; simp [survivors] at hh
  | cons x t ih =>
    intro k h hh
    unfold survivors at hh
    by_cases hc : c k = true
    · simp only [hc, if_true] at hh
      exact List.mem_cons_of_mem _ (ih _ _ hh)
    · simp only [hc, Bool.false_eq_true, if_false, List.mem_cons] at hh
      rcases hh with rfl | hh
      · exact List.mem_cons_self _ _
      · exact List.mem_cons_of_mem _ (ih _ _ hh)

theorem survivors_not_mem (c : Nat → Bool) : ∀ (l : List Int) (k i : Nat) (h : Int),
    l.Nodup → c (k + i) = true → l[i]? = some h → h ∉ survivors c k l := by
  intro l
  induction l with
  | nil => intro k i h _ _ hi; simp at hi
  | cons x t ih =>
    intro k i h hnd hc hi
    obtain ⟨hx, ht⟩ := List.nodup_cons.mp hnd
    cases i with
    | zero =>
      simp only [List.getElem?_cons_zero, Option.some.injEq] at hi
      subst hi
      have hck : c k = true := by simpa using hc
      simp only [survivors, hck, if_true]
      exact fun hm => hx (survivors_subset c t _ _ hm)
    | succ i =>
      simp only [List.getElem?_cons_succ] at hi
      have hmem : h ∈ t := List.getElem?_mem hi
      have hne : h ≠ x := fun e => hx (e ▸ hmem)
      have hrec := ih (k + 1) i h ht (by
        have e : k + 1 + i = k + (i + 1) := by omega
        rw [e]; exact hc) hi
      unfold survivors
      by_cases hck : c k = true
      · simp only [hck, if_true]; exact hrec
      · simp only [hck, Bool.false_eq_true, if_false, List.mem_cons, not_or]
        exact ⟨hne, hrec⟩

theorem acceptedNow_nonneg (inp : RoundInput) (h : Int) (hh : h ∈ acceptedNow inp) : 0 ≤ h := by
  unfold acceptedNow at hh
  split at hh
  · exact acceptedOf_nonneg _ h hh
  · simp at hh

theorem live_ne_minus_one (L : Int) (s : State) (hwf : WF L s) (h : Int) (hh : h ∈ live s) :
    h ≠ -1 := by
  unfold live at hh
  obtain ⟨k, hk⟩ := List.mem_iff_getElem?.mp hh
  rw [List.getElem?_take] at hk
  by_cases hlt : k < s.nfds
  · rw [if_pos hlt] at hk
    rcases Nat.eq_zero_or_pos k with h0 | h0
    · subst h0
      have := hwf.listen
      rw [hk] at this
      have hL := hwf.nonneg
      simp only [Option.some.injEq] at this
      omega
    · have := (hwf.conns k h h0 hlt hk).1
      omega
  · rw [if_neg hlt] at hk
    simp at hk

theorem live_after_dispatch (L : Int) (inp : RoundInput) (s s2 : State) (evs : List Event)
    (hwf : WF L s) (post : RoundPost inp s s2 s.nfds evs) :
    live s2 = markClosed (closes inp) 0 (live s) ++ acceptedNow inp := by
  have hlen := hwf.len
  have hcap := hwf.cap
  have hll : (live s).length = s.nfds := by
    unfold live
    rw [List.length_take, handles_length]
    omega
  have hcount := post.count
  have hlen2 := post.len
  rw [show live s2 = (handles s2.fds).take s2.nfds from rfl]
  apply List.ext_getElem?
  intro j
  rw [List.getElem?_take, List.getElem?_append, markClosed_length, hll]
  by_cases hj : j < s.nfds
  · rw [if_pos (by omega), if_pos hj, post.old j hj, markClosed_getElem?]
    unfold live
    rw [List.getElem?_take, if_pos hj]
    cases (handles s.fds)[j]? with
    | none => rfl
    | some h =>
      simp only [Option.map_some', Option.some.injEq, Nat.zero_add]
      by_cases hc : closes inp j = true
      · have hc1 : 1 ≤ j ∧ j < s.nfds ∧ closing inp (flagsOf inp) j = true := by
          simp only [closes, Bool.and_eq_true, decide_eq_true_eq] at hc
          exact ⟨hc.1, hj, hc.2⟩
        rw [if_pos hc, if_pos hc1]
      · have hc1 : ¬ (1 ≤ j ∧ j < s.nfds ∧ closing inp (flagsOf inp) j = true) := by
          intro h
          apply hc
          simp only [closes, Bool.and_eq_true, decide_eq_true_eq]
          exact ⟨h.1, h.2.2⟩
        rw [if_neg hc, if_neg hc1]
  · rw [if_neg hj]
    by_cases hj2 : j < s2.nfds
    · rw [if_pos hj2]
      obtain ⟨p, hp, hp1, _⟩ := post.new (j - s.nfds) (by omega)
      have e : s.nfds + (j - s.nfds) = j := by omega
      rw [e] at hp
      rw [handles_getElem?, hp]
      simp only [Option.map_some', hp1]
      rw [List.getD_eq_getElem?_getD, List.getElem?_eq_getElem (by omega)]
      rfl
    · rw [if_neg hj2, List.getElem?_eq_none (by omega)]

/-- A round with closures below capacity: take a round on a well-formed state in which
`poll` reports readiness, no slot has unexpected readiness flags, no service cycle reads
past the end of `buffer`, and the active count after the accept-drain stays below
`MAX_FDS`. The round ends without a fault, and after its compaction: the active slots
hold the handles of the slots before the round, in order, without those of the connection slots whose cycle ended in closure, followed by
the handles accepted in the round; slot 0 holds the listening descriptor; `end_server`
is set only by a failing `accept`, not by a closure; the handles closed in the round
are exactly those of the closing slots, each of them closed; and, handles in use being
pairwise different, a closed handle is no longer in the watched set. -/
theorem round_closure_frame (listen_sd : Int) (inp : RoundInput) (s : State)
    (hwf : WF listen_sd s) (hrc : 0 < inp.rc)
    (hgood : ∀ k, k < s.nfds → bad (flagsOf inp) k = false)
    (hno : ∀ k, 1 ≤ k → k < s.nfds → faulting inp (flagsOf inp) k = false)
    (hcap : s.nfds + (acceptedNow inp).length < MAX_FDS) :
    ∃ s3, iteration listen_sd inp s = .ok (s3, s3.end_server == 0) ∧
      live s3 = survivors (closes inp) 0 (live s) ++ acceptedNow inp ∧
      (handles s3.fds)[0]? = some listen_sd ∧
      s3.end_server = (if acceptFailsNow inp then 1 else s.end_server) ∧
      closed (s3.trace.drop s.trace.length) = (List.range' 1 (s.nfds - 1)).filterMap
        (fun k => if closing inp (flagsOf inp) k then (handles s.fds)[k]? else none) ∧
      (∀ i h, closes inp i = true → (live s)[i]? = some h →
        h ∈ closed (s3.trace.drop s.trace.length)) ∧
      ((live s ++ acceptedNow inp).Nodup →
        ∀ i h, closes inp i = true → (live s)[i]? = some h → h ∉ live s3) := by
  obtain ⟨s2, b, evs, hrun, post⟩ : ∃ s2 b evs,
      dispatch listen_sd inp { s with fds := pollWrite inp.revents s.nfds s.fds } = .ok s2 ∧
      RoundPost inp s s2 b evs := by
    rcases dispatch_spec listen_sd inp s hwf (by omega) with h | ⟨_, k, k1, k2, k3⟩
    · exact h
    · rw [hno k k1 k2] at k3
      simp at k3
  have hb : b = s.nfds := by
    have h1 := post.hi
    by_contra hne
    have hlt : b < s.nfds := by omega
    have := post.stop hlt
    rw [hgood b hlt] at this
    simp at this
  subst hb
  have hlive2 := live_after_dispatch listen_sd inp s s2 evs hwf post
  have hpos := hwf.pos
  have hnm1 : ∀ h ∈ live s, h ≠ -1 := live_ne_minus_one listen_sd s hwf
  have hend2 : s2.end_server = (if acceptFailsNow inp then 1 else s.end_server) := by
    rw [post.endFlag]
    by_cases hf : acceptFailsNow inp = true
    · rw [if_pos (Or.inr hf), if_pos hf]
    · rw [if_neg hf, if_neg (by
        rintro (h | h)
        · omega
        · exact hf h)]
  -- the compaction
  have hcomp : ∃ s3, compaction s2 = .ok s3 ∧ s3.end_server = s2.end_server ∧
      s3.trace = s2.trace ∧ live s3 = survivors (closes inp) 0 (live s) ++ acceptedNow inp := by
    unfold compaction
    by_cases hc : (s2.compress_array != 0) = true
    · simp only [hc, if_true]
      obtain ⟨r, hr⟩ := compressLoop_total (s2.nfds + 1) 0 s2.nfds s2.fds
        (by rw [post.len, post.count]; exact hcap) (Nat.zero_le _) (by omega)
      obtain ⟨_, _, _, c4⟩ := compressLoop_spec _ _ _ _ _ hr (Nat.zero_le _)
      simp only [List.take_zero, List.nil_append, List.drop_zero] at c4
      have hr1 : compress s2.fds s2.nfds = .ok r := hr
      simp only [hr1]
      refine ⟨_, rfl, rfl, rfl, ?_⟩
      show (handles r.1).take r.2 = _
      rw [c4]
      have : (handles s2.fds).take s2.nfds = live s2 := rfl
      rw [this, hlive2, List.filter_append, filter_markClosed _ _ _ hnm1]
      congr 1
      rw [List.filter_eq_self]
      intro h hh
      have := acceptedNow_nonneg inp h hh
      simp only [bne_iff_ne, ne_eq]
      omega
    · simp only [hc, Bool.false_eq_true, if_false]
      refine ⟨s2, rfl, rfl, rfl, ?_⟩
      rw [hlive2]
      congr 1
      have hflag := post.flag
      have hca : s2.compress_array = 0 := by simpa using hc
      have hany : (List.range' 1 (s.nfds - 1)).any (closing inp (flagsOf inp)) = false := by
        by_contra hne
        have ht : (List.range' 1 (s.nfds - 1)).any (closing inp (flagsOf inp)) = true := by
          rw [Bool.not_eq_false] at hne
          exact hne
        rw [ht, if_pos rfl, hca] at hflag
        omega
      have hnone : ∀ j, j < (live s).length → closes inp (0 + j) = false := by
        intro j hj
        rw [Nat.zero_add]
        have hjn : j < s.nfds := by
          unfold live at hj
          rw [List.length_take] at hj
          omega
        rcases Nat.eq_zero_or_pos j with h0 | h0
        · subst h0; simp [closes]
        · have := List.any_eq_false.mp hany j (List.mem_range'_1.mpr ⟨h0, by omega⟩)
          simp [closes, this]
      obtain ⟨m1, m2⟩ := markClosed_of_none (closes inp) (live s) 0 hnone
      rw [m1, m2]
  obtain ⟨s3, hc3, he3, ht3, hl3⟩ := hcomp
  have hdrop : s3.trace.drop s.trace.length = evs := by rw [ht3, post.tr, List.drop_left]
  have hidx : ∀ i h, closes inp i = true → (live s)[i]? = some h →
      1 ≤ i ∧ i < s.nfds ∧ closing inp (flagsOf inp) i = true ∧ (handles s.fds)[i]? = some h := by
    intro i h hci hi
    simp only [closes, Bool.and_eq_true, decide_eq_true_eq] at hci
    unfold live at hi
    rw [List.getElem?_take] at hi
    by_cases hlt : i < s.nfds
    · rw [if_pos hlt] at hi
      exact ⟨hci.1, hlt, hci.2, hi⟩
    · rw [if_neg hlt] at hi
      simp at hi
  refine ⟨s3, ?_, hl3, ?_, by rw [he3, hend2], by rw [hdrop, post.cl], ?_, ?_⟩
  · unfold iteration
    have h1 : ¬ inp.rc < 0 := by omega
    have h2 : (inp.rc == 0) = false := by
      simp only [beq_eq_false_iff_ne, ne_eq]
      omega
    simp only [h1, h2, if_false, Bool.false_eq_true, hrun, hc3]
  · have hls : (live s)[0]? = some listen_sd := by
      unfold live
      rw [List.getElem?_take, if_pos (by omega)]
      exact hwf.listen
    have h0 : (live s3)[0]? = some listen_sd := by
      rw [hl3]
      cases hl : live s with
      | nil => rw [hl] at hls; simp at hls
      | cons x t =>
        rw [hl] at hls
        simp only [List.getElem?_cons_zero, Option.some.injEq] at hls
        subst hls
        have : closes inp 0 = false := by simp [closes]
        simp [survivors, this]
    unfold live at h0
    rw [List.getElem?_take] at h0
    split at h0
    · exact h0
    · simp at h0
  · intro i h hci hi
    obtain ⟨i1, i2, i3, i4⟩ := hidx i h hci hi
    rw [hdrop, post.cl, List.mem_filterMap]
    exact ⟨i, List.mem_range'_1.mpr ⟨i1, by omega⟩, by rw [if_pos i3]; exact i4⟩
  · intro hnd i h hci hi
    rw [hl3, List.mem_append, not_or]
    have hnd1 := (List.nodup_append.mp hnd)
    refine ⟨survivors_not_mem (closes inp) (live s) 0 i h hnd1.1 (by rw [Nat.zero_add]; exact hci) hi,
      ?_⟩
    intro hm
    exact hnd1.2.2 (List.getElem?_mem hi) hm

/-! ## Well-formed states are kept by the rounds -/

theorem shutdownRound_good (k : Nat) : bad (flagsOf shutdownRound) k = false := by
  unfold bad flagsOf shutdownRound
  match k with
  | 0 => decide
  | 1 => decide
  | k + 2 => simp [List.getD]

theorem shutdownRound_sound (k : Nat) : faulting shutdownRound (flagsOf shutdownRound) k = false := by
  have h : overreads shutdownRound k = false := rfl
  simp only [faulting, h, Bool.and_false]

/-- A round on three active slots in which the peer of slot 1 shuts down. -/
theorem round_closure_frame_witness :
    WF 3 threeSlots ∧ 0 < shutdownRound.rc ∧
    (∀ k, k < threeSlots.nfds → bad (flagsOf shutdownRound) k = false) ∧
    (∀ k, 1 ≤ k → k < threeSlots.nfds → faulting shutdownRound (flagsOf shutdownRound) k = false) ∧
    threeSlots.nfds + (acceptedNow shutdownRound).length < MAX_FDS ∧
    ∃ s3, iteration 3 shutdownRound threeSlots = .ok (s3, s3.end_server == 0) ∧
      live s3 = survivors (closes shutdownRound) 0 (live threeSlots) ++ acceptedNow shutdownRound ∧
      (handles s3.fds)[0]? = some 3 ∧
      s3.end_server = (if acceptFailsNow shutdownRound then 1 else threeSlots.end_server) ∧
      closed (s3.trace.drop threeSlots.trace.length) =
        (List.range' 1 (threeSlots.nfds - 1)).filterMap
          (fun k => if closing shutdownRound (flagsOf shutdownRound) k
            then (handles threeSlots.fds)[k]? else none) ∧
      (∀ i h, closes shutdownRound i = true → (live threeSlots)[i]? = some h →
        h ∈ closed (s3.trace.drop threeSlots.trace.length)) ∧
      ((live threeSlots ++ acceptedNow shutdownRound).Nodup →
        ∀ i h, closes shutdownRound i = true → (live threeSlots)[i]? = some h → h ∉ live s3) :=
  ⟨threeSlots_wf, by decide, fun k _ => shutdownRound_good k,
    fun k _ _ => shutdownRound_sound k, by decide,
    round_closure_frame 3 shutdownRound threeSlots threeSlots_wf (by decide)
      (fun k _ => shutdownRound_good k) (fun k _ _ => shutdownRound_sound k) (by decide)⟩

set_option maxRecDepth 100000 in
/-- The amended statement of C6 at three active slots with `POLLERR` on slot 1. -/
theorem round_aborts_at_unexpected_witness :
    0 < errorRound.rc ∧ 1 < threeSlots.nfds ∧ threeSlots.nfds ≤ threeSlots.fds.length ∧
    flagsOf errorRound 1 ≠ 0 ∧ flagsOf errorRound 1 ≠ POLLIN ∧
    (dispatch 3 errorRound
        { threeSlots with fds := pollWrite errorRound.revents threeSlots.nfds threeSlots.fds } =
      (dispatchLoop 3 errorRound 1 0
        { threeSlots with fds := pollWrite errorRound.revents threeSlots.nfds threeSlots.fds }).map
        (fun t => { t with end_server := 1 }) ∧
    iteration 3 errorRound threeSlots =
      (match dispatchLoop 3 errorRound 1 0
          { threeSlots with fds := pollWrite errorRound.revents threeSlots.nfds threeSlots.fds } with
        | .error e => .error e
        | .ok t =>
          match compaction { t with end_server := 1 } with
          | .error e => .error e
          | .ok s2 => .ok (s2, false)) ∧
    ∀ s2 c, iteration 3 errorRound threeSlots = .ok (s2, c) →
      s2.end_server = 1 ∧ c = false ∧
        serverLoop 3 (errorRound :: [timeoutRound]) threeSlots = .ok (s2, true)) :=
  ⟨by decide, (by decide : 1 < 3), le_of_le_of_eq threeSlots_wf.cap threeSlots_wf.len.symm,
    by decide, by decide,
    round_aborts_at_unexpected 3 errorRound [timeoutRound] threeSlots 1 (by decide)
      (by decide : 1 < 3) (le_of_le_of_eq threeSlots_wf.cap threeSlots_wf.len.symm)
      (by decide) (by decide)⟩

set_option maxRecDepth 100000 in
theorem burst_from_initial :
    iteration 3 (burstRound 2) (initState 3) = .ok (afterBurst, true) := by
  decide

/-- Slot 0 in the state after a first round that accepts two connections. -/
theorem reachable_slot_zero_witness :
    Reachable 3 afterBurst true ∧
    (handles afterBurst.fds)[0]? = some 3 ∧ 1 ≤ afterBurst.nfds ∧ afterBurst.nfds ≤ MAX_FDS ∧
      afterBurst.fds.length = MAX_FDS :=
  ⟨Reachable.round _ _ _ _ (Reachable.init (by decide)) burst_from_initial,
    reachable_slot_zero 3 afterBurst true
      (Reachable.round _ _ _ _ (Reachable.init (by decide)) burst_from_initial)⟩

/-! ## Accounting of open handles -/

theorem live_length (s : State) (h : s.nfds ≤ s.fds.length) : (live s).length = s.nfds := by
  unfold live
  rw [List.length_take, handles_length]
  omega

theorem live_getElem? (s : State) (k : Nat) :
    (live s)[k]? = if k < s.nfds then (handles s.fds)[k]? else none := by
  unfold live
  rw [List.getElem?_take]

theorem live_after_accept (rs : List SysRet) (s s1 : State) (h : acceptLoop rs s = .ok s1)
    (hn : s.nfds ≤ s.fds.length) : live s1 = live s ++ acceptedOf rs := by
  obtain ⟨a1, a2, a3, _, _, _, a7, a8⟩ := acceptLoop_spec rs s s1 h
  apply List.ext_getElem?
  intro j
  rw [List.getElem?_append, live_length s hn, live_getElem?, live_getElem?]
  by_cases hj : j < s.nfds
  · rw [if_pos (by omega), if_pos hj, if_pos hj, handles_getElem?, handles_getElem?,
      a7 j (Or.inl hj)]
  · rw [if_neg hj]
    by_cases hj2 : j < s1.nfds
    · obtain ⟨p, _, hp1⟩ := a8 j (by omega) hj2
      rw [if_pos hj2, handles_getElem?, hp1]
      simp only [Option.map_some']
      rw [List.getD_eq_getElem?_getD, List.getElem?_eq_getElem (by omega)]
      rfl
    · rw [if_neg hj2, List.getElem?_eq_none (by omega)]

theorem filter_set_perm : ∀ (l : List Int) (i : Nat) (x : Int), l[i]? = some x → 0 ≤ x →
    List.Perm (l.filter (fun h => decide (0 ≤ h)))
      (x :: (l.set i (-1)).filter (fun h => decide (0 ≤ h))) := by
  intro l
  induction l with
  | nil => intro i x hi; simp at hi
  | cons a t ih =>
    intro i x hi hx
    cases i with
    | zero =>
      simp only [List.getElem?_cons_zero, Option.some.injEq] at hi
      subst hi
      simp [List.filter_cons, hx]
    | succ i =>
      simp only [List.getElem?_cons_succ] at hi
      have := ih i x hi hx
      simp only [List.set_cons_succ, List.filter_cons]
      by_cases ha : 0 ≤ a
      · simp only [ha, decide_True, if_true]
        exact (List.Perm.cons a this).trans (List.Perm.swap x a _)
      · simp only [ha, decide_False, Bool.false_eq_true, if_false]
        exact this

theorem cleanupLoop_eq : ∀ (n i : Nat) (s : State), i + n ≤ s.fds.length →
    cleanupLoop n i s = .ok { s with trace := s.trace ++
      ((((handles s.fds).drop i).take n).filter (fun h => decide (0 ≤ h))).map Event.close } := by
  intro n
  induction n with
  | zero =>
    intro i s _
    simp [cleanupLoop]
  | succ n ih =>
    intro i s h
    have hil : i < s.fds.length := by omega
    have hih : i < (handles s.fds).length := by rw [handles_length]; exact hil
    have hdrop : (handles s.fds).drop i = (s.fds[i]).fd :: (handles s.fds).drop (i + 1) := by
      rw [List.drop_eq_getElem_cons hih]
      simp [handles]
    unfold cleanupLoop
    simp only [rd, List.getElem?_eq_getElem hil, hdrop, List.take_succ_cons, List.filter_cons]
    by_cases hp : (s.fds[i]).fd ≥ 0
    · have hp1 : 0 ≤ (s.fds[i]).fd := hp
      simp only [hp, if_true, hp1, decide_True]
      rw [ih (i + 1) _ (by show i + 1 + n ≤ s.fds.length; omega)]
      simp
    · have hp1 : ¬ 0 ≤ (s.fds[i]).fd := hp
      simp only [hp, if_false, hp1, decide_False, Bool.false_eq_true]
      rw [ih (i + 1) _ (by omega)]

theorem cleanup_eq (s : State) (h : s.nfds ≤ s.fds.length) :
    cleanup s = .ok { s with trace := s.trace ++
      ((live s).filter (fun h => decide (0 ≤ h))).map Event.close } := by
  unfold cleanup
  rw [cleanupLoop_eq s.nfds 0 s (by omega)]
  simp [live]

theorem obs_of_closes (l : List Int) :
    closed (l.map Event.close) = l ∧ accepted (l.map Event.close) = [] := by
  induction l with
  | nil => exact ⟨rfl, rfl⟩
  | cons a t ih =>
    obtain ⟨h1, h2⟩ := ih
    constructor
    · have : closed (List.map Event.close (a :: t)) = a :: closed (List.map Event.close t) := by
        simp [closed]
      rw [this, h1]
    · have : accepted (List.map Event.close (a :: t)) = accepted (List.map Event.close t) := by
        simp [accepted]
      rw [this, h2]

theorem live_after_close (s : State) (i : Nat) (p : pollfd) (fds1 : List pollfd)
    (nfds1 : Nat) (e c : Int) (tr : List Event)
    (hfds : fds1 = s.fds.set i { p with fd := -1 }) (hn : nfds1 = s.nfds) :
    live ⟨fds1, nfds1, e, c, tr⟩ = (live s).set i (-1) := by
  unfold live
  simp only [hfds, hn, handles_set_fd, List.set_take]

theorem dispatchSlot_mid (L : Int) (inp : RoundInput) (i : Nat) (st st1 : State) (brk : Bool)
    (h : dispatchSlot L inp i st = .ok (st1, brk)) (hi : i < st.nfds) (hM : Mid L i st) :
    Mid L (i + 1) st1 ∧ st.nfds ≤ st1.nfds := by
  have hweak : Mid L (i + 1) st :=
    ⟨hM.bound, hM.marks, fun k h hk => hM.rest k h (by omega), hM.perm⟩
  unfold dispatchSlot at h
  cases hp : rd st.fds i with
  | error e => simp [hp] at h
  | ok p =>
    have hp1 := rd_eq_ok.mp hp
    simp only [hp] at h
    by_cases h0 : (p.revents == 0) = true
    · simp only [h0, if_true, Except.ok.injEq, Prod.mk.injEq] at h
      rw [← h.1]; exact ⟨hweak, le_refl _⟩
    · simp only [h0, Bool.false_eq_true, if_false] at h
      by_cases h1 : (p.revents != POLLIN) = true
      · simp only [h1, if_true, Except.ok.injEq, Prod.mk.injEq] at h
        rw [← h.1]
        exact ⟨⟨hweak.bound, hweak.marks, hweak.rest, hweak.perm⟩, le_refl _⟩
      · simp only [h1, Bool.false_eq_true, if_false] at h
        by_cases h2 : (p.fd == L) = true
        · simp only [h2, if_true] at h
          cases ha : acceptLoop (inp.accepts i) st with
          | error e => simp [ha] at h
          | ok s2 =>
            simp only [ha, Except.ok.injEq, Prod.mk.injEq] at h
            obtain ⟨a1, a2, a3, a4, _, a6, _, _⟩ := acceptLoop_spec _ _ _ ha
            have hlive := live_after_accept _ _ _ ha hM.bound
            obtain ⟨o1, o2, _⟩ := acceptEvents_obs (inp.accepts i)
            rw [← h.1]
            refine ⟨⟨?_, ?_, ?_, ?_⟩, by omega⟩
            · by_cases hnil : acceptedOf (inp.accepts i) = []
              · rw [a1, a2, hnil]; simpa using hM.bound
              · rw [a2]; exact a3 hnil
            · intro x hx
              rw [hlive, List.mem_append] at hx
              rcases hx with hx | hx
              · rw [a4]; exact hM.marks x hx
              · exact Or.inl (acceptedOf_nonneg _ x hx)
            · intro k x hk hx
              rw [hlive, List.getElem?_append] at hx
              split at hx
              · exact hM.rest k x (by omega) hx
              · exact acceptedOf_nonneg _ x (List.getElem?_mem hx)
            · rw [a6, accepted_append, closed_append, o1, o2, hlive, List.filter_append,
                List.append_nil]
              have hf : (acceptedOf (inp.accepts i)).filter (fun h => decide (0 ≤ h)) =
                  acceptedOf (inp.accepts i) := by
                rw [List.filter_eq_self]
                intro x hx
                simpa using acceptedOf_nonneg _ x hx
              rw [hf, ← List.append_assoc, ← List.cons_append]
              exact List.Perm.append_right _ hM.perm
        · simp only [h2, Bool.false_eq_true, if_false] at h
          have hno : overreads inp i = false := by
            by_contra hc
            rw [serviceCycle_fault inp i st p hp1 (by simpa using hc)] at h
            simp at h
          rw [serviceCycle_eq inp i st p hp1 hno] at h
          simp only [Except.ok.injEq, Prod.mk.injEq] at h
          obtain ⟨c1, c2, _⟩ := cycleEvents_obs inp i p.fd
          have hli : (live st)[i]? = some p.fd := by
            rw [live_getElem?, if_pos hi, handles_getElem?, hp1]; rfl
          have hfd : 0 ≤ p.fd := hM.rest i p.fd (le_refl _) hli
          rw [← h.1]
          by_cases hc : closesConn inp i = true
          · rw [if_pos hc]
            have hlive := live_after_close st i p _ _ st.end_server 1
              (st.trace ++ (cycleEvents inp i p.fd ++ [Event.close p.fd])) rfl rfl
            refine ⟨⟨by simpa using hM.bound, ?_, ?_, ?_⟩, le_refl _⟩
            · intro x hx
              rw [hlive] at hx
              rcases List.mem_or_eq_of_mem_set hx with hx | hx
              · rcases hM.marks x hx with hm | hm
                · exact Or.inl hm
                · exact Or.inr ⟨hm.1, by simp⟩
              · exact Or.inr ⟨hx, by simp⟩
            · intro k x hk hx
              rw [hlive, List.getElem?_set_ne (by omega)] at hx
              exact hM.rest k x (by omega) hx
            · rw [hlive]
              simp only [accepted_append, closed_append, c1, c2, List.append_nil, List.nil_append]
              have hacc : accepted [Event.close p.fd] = [] := by simp [accepted]
              have hcl : closed [Event.close p.fd] = [p.fd] := by simp [closed]
              rw [hacc, hcl, List.append_nil, List.append_assoc, List.singleton_append]
              exact hM.perm.trans (List.Perm.append_left _ (filter_set_perm _ i p.fd hli hfd))
          · rw [if_neg hc]
            refine ⟨⟨hM.bound, hM.marks, fun k x hk => hM.rest k x (by omega), ?_⟩, le_refl _⟩
            simp only [accepted_append, closed_append, c1, c2, List.append_nil]
            exact hM.perm

theorem dispatchLoop_mid (L : Int) (inp : RoundInput) : ∀ (n i : Nat) (st st1 : State),
    dispatchLoop L inp n i st = .ok st1 → i + n ≤ st.nfds → Mid L i st → ∃ j, Mid L j st1 := by
  intro n
  induction n with
  | zero =>
    intro i st st1 h _ hM
    simp only [dispatchLoop, Except.ok.injEq] at h
    rw [← h]; exact ⟨i, hM⟩
  | succ n ih =>
    intro i st st1 h hn hM
    unfold dispatchLoop at h
    cases hs : dispatchSlot L inp i st with
    | error e => simp [hs] at h
    | ok r =>
      obtain ⟨s2, brk⟩ := r
      obtain ⟨hM2, hmono⟩ := dispatchSlot_mid L inp i st s2 brk hs (by omega) hM
      cases brk with
      | true =>
        simp only [hs, Except.ok.injEq] at h
        rw [← h]; exact ⟨i + 1, hM2⟩
      | false =>
        simp only [hs] at h
        exact ih (i + 1) s2 st1 h (by omega) hM2

theorem compaction_mid (L : Int) (j : Nat) (s s1 : State) (h : compaction s = .ok s1)
    (hM : Mid L j s) : Mid L 0 s1 := by
  unfold compaction at h
  by_cases hc : (s.compress_array != 0) = true
  · simp only [hc, if_true] at h
    cases hr : compress s.fds s.nfds with
    | error e => simp [hr] at h
    | ok r =>
      simp only [hr, Except.ok.injEq] at h
      obtain ⟨c1, _, c3, c4⟩ := compressLoop_spec _ _ _ _ _ hr (Nat.zero_le _)
      simp only [List.take_zero, List.nil_append, List.drop_zero] at c4
      have hlive : live s1 = (live s).filter (fun h => h != -1) := by
        rw [← h]; exact c4
      have hb := hM.bound
      have hge : ∀ x ∈ live s1, 0 ≤ x := by
        intro x hx
        rw [hlive, List.mem_filter] at hx
        rcases hM.marks x hx.1 with hm | hm
        · exact hm
        · have := hx.2
          simp [hm.1] at this
      refine ⟨by rw [← h]; simp only []; omega, fun x hx => Or.inl (hge x hx),
        fun k x _ hx => hge x (List.getElem?_mem hx), ?_⟩
      have htr : s1.trace = s.trace := by rw [← h]
      rw [htr, hlive, List.filter_filter]
      have hcongr : (live s).filter (fun a => decide (0 ≤ a) && (a != -1)) =
          (live s).filter (fun a => decide (0 ≤ a)) := by
        apply List.filter_congr
        intro x _
        by_cases hx : 0 ≤ x
        · have : x ≠ -1 := by omega
          simp [hx, this]
        · simp [hx]
      rw [hcongr]
      exact hM.perm
  · simp only [hc, Bool.false_eq_true, if_false, Except.ok.injEq] at h
    rw [← h]
    have hca : s.compress_array = 0 := by simpa using hc
    have hge : ∀ x ∈ live s, 0 ≤ x := by
      intro x hx
      rcases hM.marks x hx with hm | hm
      · exact hm
      · exact absurd hca hm.2
    exact ⟨hM.bound, fun x hx => Or.inl (hge x hx), fun k x _ hx => hge x (List.getElem?_mem hx),
      hM.perm⟩

theorem iteration_mid (L : Int) (inp : RoundInput) (s s1 : State) (c : Bool)
    (h : iteration L inp s = .ok (s1, c)) (hM : Mid L 0 s) : Mid L 0 s1 := by
  unfold iteration at h
  by_cases h1 : inp.rc < 0
  · simp only [h1, if_true, Except.ok.injEq, Prod.mk.injEq] at h
    rw [← h.1]; exact hM
  · simp only [h1, if_false] at h
    by_cases h2 : (inp.rc == 0) = true
    · simp only [h2, if_true, Except.ok.injEq, Prod.mk.injEq] at h
      rw [← h.1]; exact hM
    · simp only [h2, Bool.false_eq_true, if_false] at h
      cases hd : dispatch L inp { s with fds := pollWrite inp.revents s.nfds s.fds } with
      | error e => simp [hd] at h
      | ok s2 =>
        simp only [hd] at h
        cases hc : compaction s2 with
        | error e => simp [hc] at h
        | ok s3 =>
          simp only [hc, Except.ok.injEq, Prod.mk.injEq] at h
          rw [← h.1]
          have hlive : live { s with fds := pollWrite inp.revents s.nfds s.fds } = live s := by
            unfold live
            simp only [pollWrite_handles]
          have hM1 : Mid L 0 { s with fds := pollWrite inp.revents s.nfds s.fds } :=
            ⟨by simpa [pollWrite_length] using hM.bound, by rw [hlive]; exact hM.marks,
              by rw [hlive]; exact hM.rest, by rw [hlive]; exact hM.perm⟩
          obtain ⟨j, hM2⟩ := dispatchLoop_mid L inp _ 0 _ s2 hd (by simp) hM1
          exact compaction_mid L j s2 s3 hc hM2

theorem initState_mid (L : Int) (hL : 0 ≤ L) : Mid L 0 (initState L) := by
  have hz := initState_slotZero L
  have hlive : live (initState L) = [L] := by
    apply List.ext_getElem?
    intro k
    rw [live_getElem?]
    cases k with
    | zero => rw [if_pos (show 0 < (initState L).nfds from hz.pos)]; exact hz.listen
    | succ k =>
      have : ¬ (k + 1 < (initState L).nfds) := by
        show ¬ (k + 1 < 1)
        omega
      rw [if_neg this]; rfl
  refine ⟨?_, ?_, ?_, ?_⟩
  · rw [hz.len]; exact (by decide : 1 ≤ MAX_FDS)
  · intro x hx
    rw [hlive] at hx
    simp only [List.mem_singleton] at hx
    exact Or.inl (hx ▸ hL)
  · intro k x _ hx
    rw [hlive] at hx
    have := List.getElem?_mem hx
    simp only [List.mem_singleton] at this
    exact this ▸ hL
  · rw [hlive]
    simp [initState, accepted, closed, hL]

theorem serverLoop_mid (L : Int) : ∀ (inputs : List RoundInput) (s sf : State),
    serverLoop L inputs s = .ok (sf, true) → Mid L 0 s → Mid L 0 sf := by
  intro inputs
  induction inputs with
  | nil => intro s sf h _; simp [serverLoop] at h
  | cons inp rest ih =>
    intro s sf h hM
    unfold serverLoop at h
    cases hit : iteration L inp s with
    | error e => simp [hit] at h
    | ok r =>
      obtain ⟨s1, c⟩ := r
      have hM1 := iteration_mid L inp s s1 c hit hM
      cases c with
      | true =>
        simp only [hit] at h
        exact ih s1 sf h hM1
      | false =>
        simp only [hit, Except.ok.injEq, Prod.mk.injEq, and_true] at h
        rw [← h]; exact hM1

/-- The cleanup after a run with defined behaviour: when the loop, entered with a
non-negative listening descriptor, is left (for any reason: `poll` fails or times out,
or `end_server` is set) after rounds that end without a fault, the handles still open (the listening descriptor and the accepted
handles, less the handles closed in service cycles, counted with multiplicity) are
exactly the non-negative handles of the active slots; the cleanup ends and closes each
of them once, in slot order, and nothing else; so that overall every opened handle is
closed exactly once. -/
theorem cleanup_closes_open_handles (listen_sd : Int) (hL : 0 ≤ listen_sd)
    (inputs : List RoundInput) (s : State)
    (h : serverLoop listen_sd inputs (initState listen_sd) = .ok (s, true)) :
    List.Perm (listen_sd :: accepted s.trace)
      (closed s.trace ++ (live s).filter (fun h => decide (0 ≤ h))) ∧
    ∃ s1, cleanup s = .ok s1 ∧
      s1.trace = s.trace ++ ((live s).filter (fun h => decide (0 ≤ h))).map Event.close ∧
      List.Perm (closed s1.trace) (listen_sd :: accepted s1.trace) := by
  have hM := serverLoop_mid listen_sd inputs _ s h (initState_mid listen_sd hL)
  refine ⟨hM.perm, _, cleanup_eq s hM.bound, rfl, ?_⟩
  obtain ⟨o1, o2⟩ := obs_of_closes ((live s).filter (fun h => decide (0 ≤ h)))
  simp only [closed_append, accepted_append, o1, o2, List.append_nil]
  exact hM.perm.symm

theorem burst_then_timeout :
    serverLoop 3 [burstRound 2, timeoutRound] (initState 3) = .ok (afterBurst, true) := by
  unfold serverLoop
  rw [burst_from_initial]
  rfl

/-- The cleanup after a run of two rounds: two connections are accepted, then `poll`
times out. -/
theorem cleanup_closes_open_handles_witness :
    (0 : Int) ≤ 3 ∧
    serverLoop 3 [burstRound 2, timeoutRound] (initState 3) = .ok (afterBurst, true) ∧
    List.Perm (3 :: accepted afterBurst.trace)
      (closed afterBurst.trace ++ (live afterBurst).filter (fun h => decide (0 ≤ h))) ∧
    ∃ s1, cleanup afterBurst = .ok s1 ∧
      s1.trace = afterBurst.trace ++
        ((live afterBurst).filter (fun h => decide (0 ≤ h))).map Event.close ∧
      List.Perm (closed s1.trace) (3 :: accepted s1.trace) :=
  ⟨by decide, burst_then_timeout,
    cleanup_closes_open_handles 3 (by decide) [burstRound 2, timeoutRound] afterBurst
      burst_then_timeout⟩

/-! ## A run that fills the array, then closes a connection -/

theorem recvBuffer_newline (bytes : List Nat) (h : bytes.length ≤ MAX_BUFF)
    (hpos : 1 ≤ bytes.length) :
    ((recvBuffer bytes).set (bytes.length - 1) 0).take bytes.length = bytes.dropLast ++ [0] := by
  rw [recvBuffer_of_le bytes h]
  cases bytes using List.reverseRecOn with
  | nil => simp at hpos
  | append_singleton l a =>
    simp only [List.length_append, List.length_singleton, Nat.add_sub_cancel,
      List.dropLast_concat]
    rw [List.append_assoc, List.set_append_right _ _ (le_refl _)]
    simp only [Nat.sub_self, List.singleton_append, List.set_cons_zero]
    have e : l ++ 0 :: List.replicate (MAX_BUFF - (l.length + 1)) 0 =
        (l ++ [0]) ++ List.replicate (MAX_BUFF - (l.length + 1)) 0 := by simp
    rw [e, List.take_left' (by simp)]

/-- When the last received byte is a newline, the service cycle hands to `send` as
many bytes as were received: the received bytes with the newline replaced by a zero
byte. -/
theorem serviceCycle_newline_overwritten (inp : RoundInput) (i : Nat) (s : State) (p : pollfd)
    (bytes : List Nat) (hslot : s.fds[i]? = some p) (hrecv : inp.recv i = RecvResult.data bytes)
    (hpos : 1 ≤ bytes.length) (hle : bytes.length ≤ MAX_BUFF) (hlast : bytes.getLastD 0 = 10) :
    ∃ s1, serviceCycle inp i s = .ok s1 ∧
      s1.trace = s.trace ++
        [Event.recv p.fd bytes.length, Event.send p.fd (bytes.dropLast ++ [0])] ++
        (if inp.send i < 0 then [Event.close p.fd] else []) := by
  have hmin : min bytes.length MAX_BUFF = bytes.length := Nat.min_eq_left hle
  have hne : bytes.length ≠ 0 := by omega
  have hc : ((recvBuffer bytes).set (bytes.length - 1) 0).contains 0 = true := by
    rw [contains_iff_mem]
    exact List.getElem?_mem (List.getElem?_set_self (by rw [recvBuffer_length]; omega))
  simp only [serviceCycle, cString, rd, hslot, hrecv, hmin, recvBuffer_last bytes hle hpos,
    hlast, beq_self_eq_true, if_true, recvBuffer_newline bytes hle hpos, hc]
  by_cases hs : inp.send i < 0
  · simp [hs, hne, closeConn, rd, setFd, hslot]
  · simp [hs, hne]

end ServerPoll
